import Mathlib

/-!
Verification of the `ads.txt` parser/generator (perry-mitchell/ads.txt).

The JavaScript source (`source/index.js`, newest revision: the one exporting
`generateAdsTxt`, splitting lines on the regex `\r\n|\n|\r` and comparing
account types case-insensitively) is shallowly embedded below.  Strings are
modelled as `List Char` internally and wrapped back into `String` at the API
boundary; JavaScript exceptions are modelled with `Except`; JavaScript objects
used as string maps are modelled as insertion-ordered association lists.
-/

/-- JavaScript `\s` (whitespace class), restricted to the ASCII range that the
repository's inputs exercise.  (JS also matches some Unicode spaces; none of
the embedded code paths distinguish them.) -/
def isSpaceJS (c : Char) : Bool :=
  c = ' ' || c = '\t' || c = '\n' || c = '\r' || c = '\x0b' || c = '\x0c'

/-- Regex class `[a-zA-Z]`. -/
def isAsciiAlpha (c : Char) : Bool :=
  ('a' ≤ c && c ≤ 'z') || ('A' ≤ c && c ≤ 'Z')

/-- Regex class `[0-9]`. -/
def isAsciiDigit (c : Char) : Bool :=
  '0' ≤ c && c ≤ '9'

/-- JavaScript `String.prototype.toUpperCase`, one character, ASCII fragment
(the only fragment the account-type comparison can distinguish). -/
def jsUpperChar (c : Char) : Char :=
  if 97 ≤ c.toNat && c.toNat ≤ 122 then Char.ofNat (c.toNat - 32) else c

/-- Value of one hexadecimal digit, `none` for a non-hex character. -/
def hexVal (c : Char) : Option Nat :=
  if '0' ≤ c && c ≤ '9' then some (c.toNat - 48)
  else if 'a' ≤ c && c ≤ 'f' then some (c.toNat - 87)
  else if 'A' ≤ c && c ≤ 'F' then some (c.toNat - 55)
  else none

/-- `String.prototype.split` with a single separator character: pieces between
occurrences of `sep`, always at least one piece. -/
def splitOn (sep : Char) : List Char → List (List Char)
  | [] => [[]]
  | c :: rest =>
    if c = sep then [] :: splitOn sep rest
    else
      match splitOn sep rest with
      | [] => [[c]]
      | h :: t => (c :: h) :: t

/-- `text.split(/\r\n|\n|\r/)` (the `NEW_LINE` regex): `\r\n` is consumed as a
single separator, lone `\n` and lone `\r` each separate as well. -/
def splitNL : List Char → List (List Char)
  | [] => [[]]
  | '\r' :: '\n' :: rest => [] :: splitNL rest
  | '\r' :: rest => [] :: splitNL rest
  | '\n' :: rest => [] :: splitNL rest
  | c :: rest =>
    match splitNL rest with
    | [] => [[c]]
    | h :: t => (c :: h) :: t

/-- `String.prototype.trim`: strip leading and trailing `\s` characters. -/
def trimL (l : List Char) : List Char :=
  ((l.dropWhile isSpaceJS).reverse.dropWhile isSpaceJS).reverse

/-- `Array.prototype.join` with a separator string: elements interleaved with
the separator, empty string for an empty array. -/
def joinSep (sep : List Char) : List (List Char) → List Char
  | [] => []
  | [l] => l
  | l :: rest => l ++ sep ++ joinSep sep rest

/-- A text assembled from a first line and a list of (separator, line) pairs:
each later line is preceded by its own choice of line separator, so one text
can mix `\n`, `\r` and `\r\n` at different boundaries. -/
def joinMixed : List Char → List (List Char × List Char) → List Char
  | first, [] => first
  | first, (s, l) :: rest => first ++ s ++ joinMixed l rest

/-- Map an `Option`-valued function over a list, failing if any element fails
(models a JS `Array.prototype.map` whose callback may throw, when every
possible exception is the same `URIError`). -/
def mapOpt (f : α → Option β) : List α → Option (List β)
  | [] => some []
  | a :: as =>
    match f a, mapOpt f as with
    | some b, some bs => some (b :: bs)
    | _, _ => none

/-- Map an `Except`-valued function over a list, propagating the first error
(models a JS `Array.prototype.map` whose callback may throw). -/
def mapE (f : α → Except ε β) : List α → Except ε (List β)
  | [] => .ok []
  | a :: as =>
    match f a with
    | .error e => .error e
    | .ok b =>
      match mapE f as with
      | .error e => .error e
      | .ok bs => .ok (b :: bs)

/-- Fold a fallible step over a list, propagating the first error (models a JS
`forEach` loop over mutable state whose body may throw). -/
def foldE (f : σ → α → Except ε σ) : σ → List α → Except ε σ
  | s, [] => .ok s
  | s, a :: as =>
    match f s a with
    | .error e => .error e
    | .ok s2 => foldE f s2 as

/-- Phase 1 of `decodeURIComponent`: replace each `%XX` escape by the byte it
denotes, fail on a `%` not followed by two hex digits.  Unescaped characters
pass through on the left of the sum, escape bytes on the right. -/
def pctTokenize : List Char → Option (List (Char ⊕ Nat))
  | [] => some []
  | c :: rest =>
    if c = '%' then
      match rest with
      | h1 :: h2 :: rest2 =>
        match hexVal h1, hexVal h2 with
        | some a, some b => (pctTokenize rest2).map (fun t => Sum.inr (16 * a + b) :: t)
        | _, _ => none
      | _ => none
    else (pctTokenize rest).map (fun t => Sum.inl c :: t)

/-- Phase 2 of `decodeURIComponent`: reassemble escape bytes as UTF-8 code
points (rejecting stray continuation bytes, truncated or overlong sequences,
surrogates and out-of-range values, as JS does); unescaped characters pass
through unchanged. -/
def pctAssemble : List (Char ⊕ Nat) → Option (List Char)
  | [] => some []
  | Sum.inl c :: rest => (pctAssemble rest).map (fun t => c :: t)
  | Sum.inr b :: rest =>
    if b < 128 then (pctAssemble rest).map (fun t => Char.ofNat b :: t)
    else if b < 194 then none
    else if b < 224 then
      match rest with
      | Sum.inr b2 :: rest2 =>
        if 128 ≤ b2 && b2 < 192 then
          (pctAssemble rest2).map (fun t => Char.ofNat ((b - 192) * 64 + (b2 - 128)) :: t)
        else none
      | _ => none
    else if b < 240 then
      match rest with
      | Sum.inr b2 :: Sum.inr b3 :: rest2 =>
        let cp := (b - 224) * 4096 + (b2 - 128) * 64 + (b3 - 128)
        if 128 ≤ b2 && b2 < 192 && 128 ≤ b3 && b3 < 192 && 2048 ≤ cp &&
            !(55296 ≤ cp && cp < 57344) then
          (pctAssemble rest2).map (fun t => Char.ofNat cp :: t)
        else none
      | _ => none
    else if b < 245 then
      match rest with
      | Sum.inr b2 :: Sum.inr b3 :: Sum.inr b4 :: rest2 =>
        let cp := (b - 240) * 262144 + (b2 - 128) * 4096 + (b3 - 128) * 64 + (b4 - 128)
        if 128 ≤ b2 && b2 < 192 && 128 ≤ b3 && b3 < 192 && 128 ≤ b4 && b4 < 192 &&
            65536 ≤ cp && cp < 1114112 then
          (pctAssemble rest2).map (fun t => Char.ofNat cp :: t)
        else none
      | _ => none
    else none

/-- JavaScript `decodeURIComponent`: `none` models the thrown `URIError`. -/
def decodeURIComponentL (l : List Char) : Option (List Char) :=
  (pctTokenize l).bind pctAssemble

/-- Character allowed inside a host-name label. -/
def isDomainLabelChar (c : Char) : Bool :=
  isAsciiAlpha c || isAsciiDigit c || c = '-'

/-- One dot-separated host-name label: non-empty, at most 63 characters,
letters/digits/hyphens only, no leading or trailing hyphen. -/
def isDomainLabel (l : List Char) : Bool :=
  !l.isEmpty && l.length ≤ 63 && l.all isDomainLabelChar &&
    l.head? ≠ some '-' && l.getLast? ≠ some '-'

/-- Modelled from the spec: the external `is-domain-name` dependency (not part
of this repository) -- the "domain-name well-formedness predicate (accepts
internationalized/labeled hostnames; rejects e.g. too-short or malformed
labels)".  Modelled as: at least two dot-separated well-formed labels, the last
of which (the TLD) is at least two letters. -/
def isDomainNameL (l : List Char) : Bool :=
  let labels := splitOn '.' l
  labels.length ≥ 2 && labels.all isDomainLabel &&
    (match labels.getLast? with
     | some t => 2 ≤ t.length && t.all isAsciiAlpha
     | none => false)

/-- `isDomainName` at the `String` level. -/
def isDomainName (s : String) : Bool := isDomainNameL s.data

/-- The value stored under one variable name: JS stores either a string, an
array of strings, or (for a generation input built by a caller) some other
value; `other` stands for any value that is neither a string nor an array. -/
inductive VarValue where
  | str (s : String)
  | arr (l : List String)
  | other
  deriving DecidableEq

/-- One parsed/generated `ads.txt` record.  `publisherAccountID = ""` models
both the empty string and JS `undefined` (the two are indistinguishable to the
code, which only ever tests their falsiness); `none` in the two optional
fields models an absent/`undefined` entry. -/
structure AdsField where
  domain : String
  publisherAccountID : String
  accountType : String
  certificateAuthorityID : Option String
  comment : Option String
  deriving DecidableEq

/-- The manifest exchanged with callers: `{ variables, fields }`.  (`vars` is
the JS property `variables`, a name Lean 4 reserves.) -/
structure AdsTxtManifest where
  vars : List (String × VarValue)
  fields : List AdsField
  deriving DecidableEq

/-- The exceptions `parseAdsTxt` can throw. -/
inductive ParseErr where
  | badOption (v : String)
  | invalidLine (line : String)
  | uriError
  deriving DecidableEq

/-- The exceptions `generateAdsTxt` can throw. -/
inductive GenErr where
  | invalidDomain (d : String)
  | missingPublisherID
  | invalidAccountType (t : String)
  | invalidVariableValue
  deriving DecidableEq

/-- The mutable state of the `forEach` loop inside `parseAdsTxt` (`vars` is
the JS local `variables`, a name Lean 4 reserves). -/
structure ParseState where
  dataFields : List AdsField
  vars : List (String × VarValue)
  deriving DecidableEq

deriving instance DecidableEq for Except

/-- `stripComment`: split the line at `#` signs; the part before the first `#`
is the data, everything after it (further `#` signs re-joined) is the comment,
trimmed. -/
def stripComment (line : List Char) : List Char × List Char :=
  match splitOn '#' line with
  | [] => ([], [])
  | main :: parts => (main, trimL (joinSep ['#'] parts))

/-- `isComment`: regex `/^\s*#/`. -/
def isComment (line : List Char) : Bool :=
  match line.dropWhile isSpaceJS with
  | '#' :: _ => true
  | _ => false

/-- `EMPTY_LINE` regex `/^\s*$/`. -/
def isEmptyLine (line : List Char) : Bool :=
  line.all isSpaceJS

/-- Name captured by `VARIABLE_DEFINITION` (`/^([a-zA-Z]+)=(.+)$/`): the
maximal leading letter run. -/
def varName (line : List Char) : List Char :=
  line.takeWhile isAsciiAlpha

/-- Value captured by `VARIABLE_DEFINITION`: everything after the `=` that
follows the leading letter run. -/
def varValue (line : List Char) : List Char :=
  (line.drop (varName line).length).drop 1

/-- `isVariableAssignment`: does `VARIABLE_DEFINITION` match the line?
(Lines never contain `\n`/`\r` after splitting, so `.` and `$` need no
newline caveat.) -/
def isVariableAssignment (line : List Char) : Bool :=
  !(varName line).isEmpty &&
    (match line.drop (varName line).length with
     | '=' :: v => !v.isEmpty
     | _ => false)

/-- `isValidAccountType` on a character list:
`objectValues(AccountType).indexOf(type.toUpperCase()) >= 0`. -/
def isValidAccountTypeL (t : List Char) : Bool :=
  t.map jsUpperChar = "DIRECT".data || t.map jsUpperChar = "RESELLER".data

/-- `isValidAccountType` at the `String` level. -/
def isValidAccountType (t : String) : Bool := isValidAccountTypeL t.data

/-- `isDataField`: strip the comment, comma-split, trim; the line is a record
candidate iff the first piece is a well-formed domain and the third an account
type (fewer than three pieces: JS calls `toUpperCase` on `undefined`, the
`TypeError` is caught and the function returns `false`). -/
def isDataField (line : List Char) : Bool :=
  match (splitOn ',' (stripComment line).1).map trimL with
  | p0 :: _ :: p2 :: _ => isDomainNameL p0 && isValidAccountTypeL p2
  | _ => false

/-- Build the optional `comment` entry: attached only when non-empty. -/
def commentOpt (c : List Char) : Option String :=
  if 0 < c.length then some (String.mk c) else none

/-- `createDataField`: strip the comment, comma-split, trim and percent-decode
every piece (a malformed escape in any piece throws `URIError`), then take the
first four pieces positionally.  JS leaves absent positions `undefined`;
missing `publisherAccountID`/`accountType` positions are modelled by `""`
(this path is unreachable from `parseAdsTxt`, which calls `createDataField`
only after `isDataField` guaranteed at least three pieces). -/
def createDataField (line : List Char) : Except ParseErr AdsField :=
  match mapOpt decodeURIComponentL ((splitOn ',' (stripComment line).1).map trimL) with
  | none => .error .uriError
  | some decoded =>
    match decoded with
    | [] => .ok ⟨"", "", "", none, commentOpt (stripComment line).2⟩
    | [d] => .ok ⟨String.mk d, "", "", none, commentOpt (stripComment line).2⟩
    | [d, p] => .ok ⟨String.mk d, String.mk p, "", none, commentOpt (stripComment line).2⟩
    | d :: p :: t :: rest =>
      .ok ⟨String.mk d, String.mk p, String.mk t, rest.head?.map String.mk,
        commentOpt (stripComment line).2⟩

/-- Association-list lookup (JS `variables[name]`). -/
def lookupVar : List (String × VarValue) → String → Option VarValue
  | [], _ => none
  | (k, v) :: rest, n => if k = n then some v else lookupVar rest n

/-- Association-list update (JS `variables[name] = v`): replace in place if
the key exists, append otherwise (JS object insertion order). -/
def setVar : List (String × VarValue) → String → VarValue → List (String × VarValue)
  | [], n, v => [(n, v)]
  | (k, w) :: rest, n, v =>
    if k = n then (k, v) :: rest else (k, w) :: setVar rest n v

/-- The variable-accumulation branch of `parseAdsTxt`: a first occurrence is
stored as a scalar, a second turns the scalar into a two-element array, later
ones are pushed onto the array (any other stored shape is overwritten with a
scalar, mirroring the JS `else` branch). -/
def addVar (vars : List (String × VarValue)) (n : String) (v : String) :
    List (String × VarValue) :=
  match lookupVar vars n with
  | some (.str s) => setVar vars n (.arr [s, v])
  | some (.arr l) => setVar vars n (.arr (l ++ [v]))
  | _ => setVar vars n (.str v)

/-- The body of the `lines.forEach` loop in `parseAdsTxt`. -/
def processLine (ila : String) (st : ParseState) (line : List Char) :
    Except ParseErr ParseState :=
  if isComment line || isEmptyLine line then .ok st
  else if isVariableAssignment line then
    match decodeURIComponentL (varValue line) with
    | some d => .ok { st with vars := addVar st.vars (String.mk (varName line)) (String.mk d) }
    | none => .error .uriError
  else if isDataField line then
    match createDataField line with
    | .ok f => .ok { st with dataFields := st.dataFields ++ [f] }
    | .error e => .error e
  else if ila = "throw" then .error (.invalidLine (String.mk line))
  else .ok st

/-- `parseAdsTxt(text, { invalidLineAction })`.  The JS default for
`invalidLineAction` is `"filter"`; callers of the model pass the merged option
value explicitly. -/
def parseAdsTxt (text : String) (invalidLineAction : String) :
    Except ParseErr AdsTxtManifest :=
  if invalidLineAction = "filter" || invalidLineAction = "throw" then
    match foldE (processLine invalidLineAction) ⟨[], []⟩ (splitNL text.data) with
    | .ok st => .ok ⟨st.vars, st.dataFields⟩
    | .error e => .error e
  else .error (.badOption invalidLineAction)

/-- `generateLineForField`: validate domain, publisher account ID and account
type in that order, then format
`"{domain}, {publisherAccountID}, {accountType}"` with the optional
certificate-authority suffix and ` # comment` suffix. -/
def generateLineForField (f : AdsField) : Except GenErr (List Char) :=
  if !isDomainName f.domain then .error (.invalidDomain f.domain)
  else if f.publisherAccountID = "" then .error .missingPublisherID
  else if !isValidAccountType f.accountType then .error (.invalidAccountType f.accountType)
  else
    let line := f.domain.data ++ [',', ' '] ++ f.publisherAccountID.data ++
      [',', ' '] ++ f.accountType.data
    let line :=
      match f.certificateAuthorityID with
      | some c => if !c.data.isEmpty then line ++ [',', ' '] ++ c.data else line
      | none => line
    match f.comment with
    | some c => if !c.data.isEmpty then .ok (line ++ [' ', '#', ' '] ++ c.data) else .ok line
    | none => .ok line

/-- `generateLineForVariable`: one `key=value` line per array element joined
with `\n`, a single line for a string, and an `Invalid variable value` error
for anything else. -/
def generateLineForVariable (k : String) (v : VarValue) : Except GenErr (List Char) :=
  match v with
  | .arr l => .ok (joinSep ['\n'] (l.map (fun e => k.data ++ '=' :: e.data)))
  | .str s => .ok (k.data ++ '=' :: s.data)
  | .other => .error .invalidVariableValue

/-- `generateAdsTxt(manifest, header, footer)`: field lines first, variable
lines after, optional `# `-prefixed header lines prepended and footer lines
appended, all joined with `\n`. -/
def generateAdsTxt (m : AdsTxtManifest) (header footer : Option String) :
    Except GenErr String :=
  match mapE generateLineForField m.fields with
  | .error e => .error e
  | .ok fieldLines =>
    match mapE (fun kv => generateLineForVariable kv.1 kv.2) m.vars with
    | .error e => .error e
    | .ok varLines =>
      let lines := fieldLines ++ varLines
      let lines :=
        match header with
        | some h =>
          if !h.data.isEmpty then
            ((splitOn '\n' h.data).map (fun hl => '#' :: ' ' :: hl)) ++ lines
          else lines
        | none => lines
      let lines :=
        match footer with
        | some ft =>
          if !ft.data.isEmpty then
            lines ++ (splitOn '\n' ft.data).map (fun fl => '#' :: ' ' :: fl)
          else lines
        | none => lines
      .ok (String.mk (joinSep ['\n'] lines))

/-- The line `generateLineForField` formats once its three validations have
passed (factored out so that theorems can name the produced text). -/
def fieldLineRaw (f : AdsField) : List Char :=
  let line := f.domain.data ++ [',', ' '] ++ f.publisherAccountID.data ++
    [',', ' '] ++ f.accountType.data
  let line :=
    match f.certificateAuthorityID with
    | some c => if !c.data.isEmpty then line ++ [',', ' '] ++ c.data else line
    | none => line
  match f.comment with
  | some c => if !c.data.isEmpty then line ++ [' ', '#', ' '] ++ c.data else line
  | none => line

/-- The line `generateLineForVariable` formats for a scalar variable entry. -/
def varLineOf (kv : String × VarValue) : List Char :=
  kv.1.data ++ '=' ::
    (match kv.2 with
     | .str s => s.data
     | _ => [])

/-- How the variable accumulator represents a list of values for one name, in
source order: no occurrence yields no entry, a single occurrence a scalar
string, two or more an array of all values. -/
def accumRepr : List String → Option VarValue
  | [] => none
  | [v] => some (.str v)
  | v :: vs => some (.arr (v :: vs))

/-- The raw (undecoded) values of all lines that match the variable pattern
for a given name, in source order. -/
def varRawValues (name : String) (lines : List (List Char)) : List (List Char) :=
  lines.filterMap
    (fun l => if isVariableAssignment l && varName l == name.data then some (varValue l) else none)

/-- A character that survives a parse round-trip inside a record piece: not a
comma (the piece separator), `#` (comment marker), `%` (escape introducer) or
a line separator. -/
def cleanPieceChar (c : Char) : Bool :=
  !(c = ',' || c = '#' || c = '%' || c = '\r' || c = '\n')

/-- A record whose generated line parses back to the very same record: valid
domain; non-empty, clean, trim-stable publisher account ID; valid account
type; certificate authority ID absent or non-empty, clean and trim-stable; no
comment. -/
def cleanField (f : AdsField) : Bool :=
  isDomainName f.domain &&
  !f.publisherAccountID.data.isEmpty &&
  f.publisherAccountID.data.all cleanPieceChar &&
  (trimL f.publisherAccountID.data == f.publisherAccountID.data) &&
  isValidAccountType f.accountType &&
  (match f.certificateAuthorityID with
   | none => true
   | some c => !c.data.isEmpty && c.data.all cleanPieceChar && (trimL c.data == c.data)) &&
  f.comment.isNone

/-- A variable entry whose generated line parses back identically: a non-empty
all-letter name and a scalar, non-empty value free of `%` and line
separators. -/
def cleanVar (kv : String × VarValue) : Bool :=
  !kv.1.data.isEmpty && kv.1.data.all isAsciiAlpha &&
  (match kv.2 with
   | .str s => !s.data.isEmpty && s.data.all (fun c => !(c = '%' || c = '\r' || c = '\n'))
   | _ => false)

/-- A manifest in the round-trip fragment: clean comment-free records, clean
scalar variables, distinct variable names. -/
def cleanManifest (m : AdsTxtManifest) : Prop :=
  (∀ f ∈ m.fields, cleanField f = true) ∧
  (∀ kv ∈ m.vars, cleanVar kv = true) ∧
  (m.vars.map Prod.fst).Nodup

/-- The shape invariant of a stored variable value: a scalar string or a
non-empty array (never an empty one). -/
def goodVarValue (w : VarValue) : Prop :=
  (∃ s, w = .str s) ∨ ∃ l2, w = .arr l2 ∧ l2 ≠ []

/-- The record/variable invariants that hold of the parser's loop state. -/
def goodState (st : ParseState) : Prop :=
  (∀ f ∈ st.dataFields, isDomainName f.domain = true ∧ f.domain ≠ "" ∧
    isValidAccountType f.accountType = true ∧ f.accountType ≠ "" ∧
    (∀ c, f.comment = some c → c ≠ "")) ∧
  (∀ kv ∈ st.vars, goodVarValue kv.2)

theorem splitOn_cons (sep c : Char) (rest : List Char) :
    splitOn sep (c :: rest) =
      if c = sep then [] :: splitOn sep rest
      else
        match splitOn sep rest with
        | [] => [[c]]
        | h :: t => (c :: h) :: t := rfl

theorem splitNL_nil : splitNL [] = [[]] := rfl

theorem splitNL_lf (rest : List Char) : splitNL ('\n' :: rest) = [] :: splitNL rest := rfl

theorem pctTokenize_cons_ne {c : Char} (rest : List Char) (hc : c ≠ '%') :
    pctTokenize (c :: rest) = (pctTokenize rest).map (fun t => Sum.inl c :: t) := by
  rw [pctTokenize.eq_def]
  simp only [if_neg hc]

theorem pctAssemble_inl_cons (c : Char) (rest : List (Char ⊕ Nat)) :
    pctAssemble (Sum.inl c :: rest) = (pctAssemble rest).map (fun t => c :: t) := rfl

theorem splitOn_ne_nil (sep : Char) (l : List Char) : splitOn sep l ≠ [] := by
  induction l with
  | nil => simp [splitOn]
  | cons c rest ih =>
    simp only [splitOn]
    split
    · simp
    · split <;> simp

theorem splitOn_eq_single {sep : Char} {l : List Char} (h : sep ∉ l) : splitOn sep l = [l] := by
  induction l with
  | nil => simp [splitOn]
  | cons c rest ih =>
    have hc : ¬(c = sep) := fun hh => h (hh ▸ List.mem_cons_self c rest)
    have hr : sep ∉ rest := fun hh => h (List.mem_cons_of_mem _ hh)
    simp only [splitOn, if_neg hc, ih hr]

theorem splitOn_append {sep : Char} {l₁ : List Char} (l₂ : List Char) (h : sep ∉ l₁) :
    splitOn sep (l₁ ++ sep :: l₂) = l₁ :: splitOn sep l₂ := by
  induction l₁ with
  | nil => simp [splitOn]
  | cons c rest ih =>
    have hc : ¬(c = sep) := fun hh => h (hh ▸ List.mem_cons_self c rest)
    have hr : sep ∉ rest := fun hh => h (List.mem_cons_of_mem _ hh)
    rw [List.cons_append, splitOn_cons, if_neg hc, ih hr]

theorem splitOn_chars {sep : Char} {P : Char → Prop} :
    ∀ {l : List Char}, (∀ p ∈ splitOn sep l, ∀ c ∈ p, P c) → ∀ c ∈ l, c = sep ∨ P c := by
  intro l
  induction l with
  | nil => simp
  | cons x rest ih =>
    intro h c hc
    by_cases hx : x = sep
    · subst hx
      rcases List.mem_cons.mp hc with rfl | hc2
      · exact Or.inl rfl
      · refine ih ?_ c hc2
        intro p hp d hd
        refine h p ?_ d hd
        simp only [splitOn, if_pos rfl]
        exact List.mem_cons_of_mem _ hp
    · obtain ⟨hh, tt, heq⟩ : ∃ hh tt, splitOn sep rest = hh :: tt := by
        cases hsp : splitOn sep rest with
        | nil => exact absurd hsp (splitOn_ne_nil sep rest)
        | cons a b => exact ⟨a, b, rfl⟩
      have hsplit : splitOn sep (x :: rest) = (x :: hh) :: tt := by
        rw [splitOn_cons, if_neg hx, heq]
      rcases List.mem_cons.mp hc with rfl | hc2
      · refine Or.inr (h (c :: hh) ?_ c (List.mem_cons_self _ _))
        rw [hsplit]
        exact List.mem_cons_self _ _
      · refine ih ?_ c hc2
        intro p hp d hd
        rw [heq] at hp
        rcases List.mem_cons.mp hp with rfl | hp2
        · refine h (x :: p) ?_ d (List.mem_cons_of_mem _ hd)
          rw [hsplit]
          exact List.mem_cons_self _ _
        · refine h p ?_ d hd
          rw [hsplit]
          exact List.mem_cons_of_mem _ hp2

theorem splitNL_cons_other {c : Char} (rest : List Char) (h1 : c ≠ '\n') (h2 : c ≠ '\r') :
    splitNL (c :: rest) =
      match splitNL rest with
      | [] => [[c]]
      | h :: t => (c :: h) :: t := by
  rw [splitNL.eq_def]
  split
  · simp_all
  · simp_all
  · simp_all
  · simp_all
  · rename_i heq
    injection heq with e1 e2
    subst e1
    subst e2
    rfl

theorem splitNL_eq_single {l : List Char} (h1 : '\n' ∉ l) (h2 : '\r' ∉ l) :
    splitNL l = [l] := by
  induction l with
  | nil => simp [splitNL]
  | cons c rest ih =>
    have hc1 : c ≠ '\n' := fun hh => h1 (hh ▸ List.mem_cons_self c rest)
    have hc2 : c ≠ '\r' := fun hh => h2 (hh ▸ List.mem_cons_self c rest)
    rw [splitNL_cons_other rest hc1 hc2,
      ih (fun hh => h1 (List.mem_cons_of_mem _ hh)) (fun hh => h2 (List.mem_cons_of_mem _ hh))]

theorem splitNL_append {l : List Char} (r : List Char) (h1 : '\n' ∉ l) (h2 : '\r' ∉ l) :
    splitNL (l ++ '\n' :: r) = l :: splitNL r := by
  induction l with
  | nil => simp [splitNL]
  | cons c rest ih =>
    have hc1 : c ≠ '\n' := fun hh => h1 (hh ▸ List.mem_cons_self c rest)
    have hc2 : c ≠ '\r' := fun hh => h2 (hh ▸ List.mem_cons_self c rest)
    rw [List.cons_append, splitNL_cons_other _ hc1 hc2,
      ih (fun hh => h1 (List.mem_cons_of_mem _ hh)) (fun hh => h2 (List.mem_cons_of_mem _ hh))]

theorem pctTokenize_no_pct : ∀ {l : List Char}, '%' ∉ l →
    pctTokenize l = some (l.map Sum.inl) := by
  intro l
  induction l with
  | nil => simp [pctTokenize]
  | cons c rest ih =>
    intro h
    have hc : ¬(c = '%') := fun hh => h (hh ▸ List.mem_cons_self c rest)
    rw [List.map_cons, pctTokenize_cons_ne rest hc, ih (fun hh => h (List.mem_cons_of_mem _ hh))]
    rfl

theorem pctAssemble_inl : ∀ (l : List Char), pctAssemble (l.map Sum.inl) = some l := by
  intro l
  induction l with
  | nil => rfl
  | cons c rest ih =>
    rw [List.map_cons, pctAssemble_inl_cons, ih]
    rfl

theorem decode_no_pct {l : List Char} (h : '%' ∉ l) : decodeURIComponentL l = some l := by
  unfold decodeURIComponentL
  rw [pctTokenize_no_pct h]
  exact pctAssemble_inl l

theorem dropWhile_len_le (p : α → Bool) : ∀ l : List α, (l.dropWhile p).length ≤ l.length := by
  intro l
  induction l with
  | nil => simp
  | cons a as ih =>
    rw [List.dropWhile_cons]
    by_cases hp : p a
    · rw [if_pos hp]
      exact le_trans ih (by simp)
    · rw [if_neg hp]

theorem dropWhile_length_eq {p : α → Bool} :
    ∀ {l : List α}, (l.dropWhile p).length = l.length → l.dropWhile p = l := by
  intro l
  induction l with
  | nil => intro _; rfl
  | cons a as ih =>
    intro h
    by_cases hp : p a
    · rw [List.dropWhile_cons, if_pos hp] at h
      have := dropWhile_len_le p as
      simp only [List.length_cons] at h
      omega
    · rw [List.dropWhile_cons, if_neg hp]

theorem trim_stable_parts {l : List Char} (h : trimL l = l) :
    l.dropWhile isSpaceJS = l ∧ l.reverse.dropWhile isSpaceJS = l.reverse := by
  have hlen : (trimL l).length = l.length := by rw [h]
  unfold trimL at hlen
  rw [List.length_reverse] at hlen
  have h2 := dropWhile_len_le isSpaceJS ((l.dropWhile isSpaceJS).reverse)
  rw [List.length_reverse] at h2
  have h3 := dropWhile_len_le isSpaceJS l
  have e1 : (l.dropWhile isSpaceJS).length = l.length := by omega
  have d1 : l.dropWhile isSpaceJS = l := dropWhile_length_eq e1
  rw [d1] at hlen
  refine ⟨d1, dropWhile_length_eq ?_⟩
  rw [List.length_reverse]
  exact hlen

theorem trimL_no_space {l : List Char} (h : ∀ c ∈ l, isSpaceJS c = false) : trimL l = l := by
  have h1 : l.dropWhile isSpaceJS = l := by
    cases l with
    | nil => rfl
    | cons c cs => rw [List.dropWhile_cons, if_neg (by simp [h c (List.mem_cons_self c cs)])]
  have h2 : l.reverse.dropWhile isSpaceJS = l.reverse := by
    cases hr : l.reverse with
    | nil => rfl
    | cons c cs =>
      rw [List.dropWhile_cons,
        if_neg (by simp [h c (List.mem_reverse.mp (hr ▸ List.mem_cons_self c cs))])]
  unfold trimL
  rw [h1, h2, List.reverse_reverse]

theorem trimL_cons_space {l : List Char} (h : trimL l = l) : trimL (' ' :: l) = l := by
  obtain ⟨d1, d2⟩ := trim_stable_parts h
  unfold trimL
  rw [List.dropWhile_cons, if_pos (by decide), d1, d2, List.reverse_reverse]

theorem foldE_append (f : σ → α → Except ε σ) (s : σ) (as bs : List α) :
    foldE f s (as ++ bs) =
      match foldE f s as with
      | .ok s2 => foldE f s2 bs
      | .error e => .error e := by
  induction as generalizing s with
  | nil => simp [foldE]
  | cons a as2 ih =>
    simp only [List.cons_append, foldE]
    cases f s a with
    | error e => rfl
    | ok s2 => exact ih s2

theorem mapE_congr_ok {f : α → Except ε β} {g : α → β} :
    ∀ {l : List α}, (∀ a ∈ l, f a = .ok (g a)) → mapE f l = .ok (l.map g) := by
  intro l
  induction l with
  | nil => intro _; rfl
  | cons a as ih =>
    intro h
    simp only [mapE, h a (List.mem_cons_self a as),
      ih (fun b hb => h b (List.mem_cons_of_mem _ hb)), List.map_cons]

theorem mapE_exists_error {f : α → Except ε β} {a : α} (he : ∀ b, f a ≠ .ok b) :
    ∀ {l : List α}, a ∈ l → ∃ e, mapE f l = .error e := by
  intro l
  induction l with
  | nil => simp
  | cons x xs ih =>
    intro hmem
    cases hx : f x with
    | error e => exact ⟨e, by simp [mapE, hx]⟩
    | ok b =>
      rcases List.mem_cons.mp hmem with rfl | hmem2
      · exact absurd hx (he b)
      · obtain ⟨e, hee⟩ := ih hmem2
        exact ⟨e, by simp [mapE, hx, hee]⟩

theorem mapE_append_first_error {f : α → Except ε β} {x : α} {e : ε}
    (hx : f x = .error e) (post : List α) :
    ∀ {pre : List α}, (∀ a ∈ pre, ∃ b, f a = .ok b) →
      mapE f (pre ++ x :: post) = .error e := by
  intro pre
  induction pre with
  | nil => intro _; simp [mapE, hx]
  | cons a as ih =>
    intro h
    obtain ⟨b, hb⟩ := h a (List.mem_cons_self a as)
    rw [List.cons_append]
    simp only [mapE, List.append_eq, hb,
      ih (fun a2 ha2 => h a2 (List.mem_cons_of_mem _ ha2))]

theorem mapOpt_cons_ok {f : α → Option β} {a : α} {as : List α} {bs : List β}
    (h : mapOpt f (a :: as) = some bs) :
    ∃ b bs2, f a = some b ∧ mapOpt f as = some bs2 ∧ bs = b :: bs2 := by
  cases hfa : f a with
  | none => simp [mapOpt, hfa] at h
  | some b =>
    cases hrest : mapOpt f as with
    | none => simp [mapOpt, hfa, hrest] at h
    | some bs2 =>
      refine ⟨b, bs2, rfl, rfl, ?_⟩
      simp only [mapOpt, hfa, hrest] at h
      exact (Option.some.inj h).symm

theorem string_mk_data (s : String) : String.mk s.data = s := rfl

theorem takeWhile_append_stop {p : α → Bool} {k : List α} {x : α} (v : List α)
    (hk : ∀ c ∈ k, p c = true) (hx : p x = false) :
    (k ++ x :: v).takeWhile p = k := by
  induction k with
  | nil =>
    have hx2 : ¬p x = true := by
      rw [hx]
      exact Bool.false_ne_true
    rw [List.nil_append, List.takeWhile_cons_of_neg hx2]
  | cons a as ih =>
    rw [List.cons_append, List.takeWhile_cons_of_pos (hk a (List.mem_cons_self a as)),
      ih (fun c hc => hk c (List.mem_cons_of_mem _ hc))]

theorem mem_takeWhile_pred {p : α → Bool} :
    ∀ {l : List α} {a : α}, a ∈ l.takeWhile p → p a = true := by
  intro l
  induction l with
  | nil => simp
  | cons x xs ih =>
    intro a ha
    by_cases hx : p x
    · rw [List.takeWhile_cons_of_pos hx] at ha
      rcases List.mem_cons.mp ha with rfl | h2
      · exact hx
      · exact ih h2
    · rw [List.takeWhile_cons_of_neg hx] at ha
      simp at ha

theorem isVar_shape {l : List Char} (h : isVariableAssignment l = true) :
    ∃ n v, l = n ++ '=' :: v ∧ n ≠ [] ∧ (∀ c ∈ n, isAsciiAlpha c = true) ∧ v ≠ [] := by
  unfold isVariableAssignment varName at h
  rw [Bool.and_eq_true] at h
  obtain ⟨h1, h2⟩ := h
  have hsplit : l = l.takeWhile isAsciiAlpha ++ l.dropWhile isAsciiAlpha :=
    (List.takeWhile_append_dropWhile ..).symm
  have hdrop : l.drop (l.takeWhile isAsciiAlpha).length = l.dropWhile isAsciiAlpha := by
    have h0 := List.drop_left (l.takeWhile isAsciiAlpha) (l.dropWhile isAsciiAlpha)
    rwa [List.takeWhile_append_dropWhile] at h0
  rw [hdrop] at h2
  split at h2
  · rename_i v heq
    refine ⟨l.takeWhile isAsciiAlpha, v, hsplit.trans (by rw [heq]), ?_,
      fun c hc => mem_takeWhile_pred hc, ?_⟩
    · intro hnil
      rw [hnil] at h1
      exact absurd h1 (by decide)
    · intro hnil
      rw [hnil] at h2
      exact absurd h2 (by decide)
  · exact absurd h2 (by decide)

theorem isVar_of_shape {k v : List Char} (hk : k ≠ []) (hka : ∀ c ∈ k, isAsciiAlpha c = true)
    (hv : v ≠ []) :
    isVariableAssignment (k ++ '=' :: v) = true ∧ varName (k ++ '=' :: v) = k ∧
      varValue (k ++ '=' :: v) = v := by
  have hname : varName (k ++ '=' :: v) = k := takeWhile_append_stop v hka (by decide)
  have hdrop : (k ++ '=' :: v).drop k.length = '=' :: v := List.drop_left k _
  have hk2 : k.isEmpty = false := by cases k with | nil => exact absurd rfl hk | cons a b => rfl
  have hv2 : v.isEmpty = false := by cases v with | nil => exact absurd rfl hv | cons a b => rfl
  refine ⟨?_, hname, ?_⟩
  · unfold isVariableAssignment
    rw [hname, hdrop]
    simp [hk2, hv2]
  · unfold varValue
    rw [hname, hdrop]
    rfl

theorem isVar_false_of {d r : List Char} (hna : ∃ c ∈ d, isAsciiAlpha c = false)
    (hne : '=' ∉ d) : isVariableAssignment (d ++ r) = false := by
  by_contra hh
  rw [Bool.not_eq_false] at hh
  obtain ⟨n, v, heq, hn, hall, hv⟩ := isVar_shape hh
  rcases List.append_eq_append_iff.mp heq with ⟨a2, hn2, _⟩ | ⟨c2, hd2, hcv⟩
  · obtain ⟨w, hw, hwa⟩ := hna
    have hwn : w ∈ n := by
      rw [hn2]
      exact List.mem_append_left _ hw
    rw [hall w hwn] at hwa
    cases hwa
  · cases c2 with
    | nil =>
      obtain ⟨w, hw, hwa⟩ := hna
      have hdn : d = n := by simpa using hd2
      rw [hall w (hdn ▸ hw)] at hwa
      cases hwa
    | cons y c3 =>
      rw [List.cons_append] at hcv
      injection hcv with e1 _
      refine hne ?_
      rw [hd2, ← e1]
      exact List.mem_append_right n (List.mem_cons_self _ _)

theorem isComment_cons_false {c : Char} (l : List Char) (hs : isSpaceJS c = false)
    (hh : c ≠ '#') : isComment (c :: l) = false := by
  unfold isComment
  rw [List.dropWhile_cons, if_neg (by simp [hs])]
  split
  · rename_i heq
    injection heq with e1 _
    exact absurd e1 hh
  · rfl

theorem isEmptyLine_cons_false {c : Char} (l : List Char) (hs : isSpaceJS c = false) :
    isEmptyLine (c :: l) = false := by
  unfold isEmptyLine
  simp [List.all_cons, hs]

theorem labels_all {d : List Char} (h : isDomainNameL d = true) :
    (splitOn '.' d).all isDomainLabel = true := by
  simp only [isDomainNameL, Bool.and_eq_true] at h
  exact h.1.2

theorem domain_chars {d : List Char} (h : isDomainNameL d = true) :
    ∀ c ∈ d, c = '.' ∨ isDomainLabelChar c = true := by
  have hall := labels_all h
  refine splitOn_chars (fun p hp c hc => ?_)
  rw [List.all_eq_true] at hall
  have hlab := hall p hp
  simp only [isDomainLabel, Bool.and_eq_true, decide_eq_true_eq] at hlab
  obtain ⟨⟨⟨⟨_, _⟩, hchars⟩, _⟩, _⟩ := hlab
  rw [List.all_eq_true] at hchars
  exact hchars c hc

theorem domain_not_mem {d : List Char} (h : isDomainNameL d = true) {b : Char}
    (h1 : b ≠ '.') (h2 : isDomainLabelChar b = false) : b ∉ d := by
  intro hb
  rcases domain_chars h b hb with e | e
  · exact h1 e
  · rw [e] at h2
    cases h2

theorem labelChar_not_space {c : Char} (h : isDomainLabelChar c = true) :
    isSpaceJS c = false := by
  cases hs : isSpaceJS c
  · rfl
  · exfalso
    unfold isSpaceJS at hs
    simp only [Bool.or_eq_true, decide_eq_true_eq] at hs
    rcases hs with ((((e | e) | e) | e) | e) | e <;> subst e <;> exact absurd h (by decide)

theorem domain_no_space {d : List Char} (h : isDomainNameL d = true) :
    ∀ c ∈ d, isSpaceJS c = false := by
  intro c hc
  rcases domain_chars h c hc with e | e
  · subst e
    decide
  · exact labelChar_not_space e

theorem domain_ne_nil {d : List Char} (h : isDomainNameL d = true) : d ≠ [] := by
  intro heq
  rw [heq] at h
  exact absurd h (by decide)

theorem domain_has_dot {d : List Char} (h : isDomainNameL d = true) : '.' ∈ d := by
  by_contra hno
  simp only [isDomainNameL, Bool.and_eq_true] at h
  rw [splitOn_eq_single hno] at h
  obtain ⟨⟨h1, _⟩, _⟩ := h
  simp at h1

theorem domain_head_alnum {d : List Char} (h : isDomainNameL d = true) :
    ∃ x d2, d = x :: d2 ∧ (isAsciiAlpha x || isAsciiDigit x) = true := by
  obtain ⟨x, d2, rfl⟩ : ∃ x d2, d = x :: d2 := by
    cases d with
    | nil => exact absurd h (by decide)
    | cons a b => exact ⟨a, b, rfl⟩
  refine ⟨x, d2, rfl, ?_⟩
  by_cases hx : x = '.'
  · exfalso
    have hall := labels_all h
    subst hx
    rw [splitOn_cons, if_pos rfl, List.all_cons] at hall
    rw [Bool.and_eq_true] at hall
    exact absurd hall.1 (by decide)
  · obtain ⟨hh, tt, hsp⟩ : ∃ hh tt, splitOn '.' d2 = hh :: tt := by
      cases hs2 : splitOn '.' d2 with
      | nil => exact absurd hs2 (splitOn_ne_nil '.' d2)
      | cons a b => exact ⟨a, b, rfl⟩
    have hall := labels_all h
    rw [splitOn_cons, if_neg hx, hsp, List.all_cons, Bool.and_eq_true] at hall
    have hlab := hall.1
    simp only [isDomainLabel, Bool.and_eq_true, decide_eq_true_eq] at hlab
    obtain ⟨⟨⟨⟨_, _⟩, hchars⟩, hhead⟩, _⟩ := hlab
    rw [List.all_eq_true] at hchars
    have hcx := hchars x (List.mem_cons_self _ _)
    have hxm : x ≠ '-' := by simpa using hhead
    unfold isDomainLabelChar at hcx
    rw [Bool.or_eq_true] at hcx
    rcases hcx with h1 | h2
    · exact h1
    · rw [decide_eq_true_eq] at h2
      exact absurd h2 hxm

theorem acct_map_upper {t : List Char} (h : isValidAccountTypeL t = true) :
    t.map jsUpperChar = "DIRECT".data ∨ t.map jsUpperChar = "RESELLER".data := by
  unfold isValidAccountTypeL at h
  simp only [Bool.or_eq_true, decide_eq_true_eq] at h
  exact h

theorem acct_ne_nil {t : List Char} (h : isValidAccountTypeL t = true) : t ≠ [] := by
  rcases acct_map_upper h with e | e <;> intro hnil <;> rw [hnil] at e <;>
    exact absurd e (by decide)

theorem acct_not_mem {t : List Char} (h : isValidAccountTypeL t = true) {b : Char}
    (hb : jsUpperChar b ∉ "DIRECT".data ∧ jsUpperChar b ∉ "RESELLER".data) : b ∉ t := by
  intro hmem
  have hm : jsUpperChar b ∈ t.map jsUpperChar := List.mem_map_of_mem _ hmem
  rcases acct_map_upper h with e | e
  · rw [e] at hm
    exact hb.1 hm
  · rw [e] at hm
    exact hb.2 hm

theorem acct_no_space {t : List Char} (h : isValidAccountTypeL t = true) :
    ∀ c ∈ t, isSpaceJS c = false := by
  intro c hc
  cases hs : isSpaceJS c
  · rfl
  · exfalso
    unfold isSpaceJS at hs
    simp only [Bool.or_eq_true, decide_eq_true_eq] at hs
    rcases hs with ((((e | e) | e) | e) | e) | e <;> subst e <;>
      exact acct_not_mem h (by decide) hc

theorem mapOpt_congr_some {f : α → Option β} {g : α → β} :
    ∀ {l : List α}, (∀ a ∈ l, f a = some (g a)) → mapOpt f l = some (l.map g) := by
  intro l
  induction l with
  | nil => intro _; rfl
  | cons a as ih =>
    intro h
    simp only [mapOpt, h a (List.mem_cons_self a as),
      ih (fun b hb => h b (List.mem_cons_of_mem _ hb)), List.map_cons]

theorem all_not_mem {l : List Char} {q : Char → Bool} (h : l.all q = true) {b : Char}
    (hb : q b = false) : b ∉ l := by
  intro hm
  rw [List.all_eq_true] at h
  rw [h b hm] at hb
  cases hb

theorem alnum_head_facts {x : Char} (h : (isAsciiAlpha x || isAsciiDigit x) = true) :
    isSpaceJS x = false ∧ x ≠ '#' := by
  constructor
  · cases hs : isSpaceJS x
    · rfl
    · exfalso
      unfold isSpaceJS at hs
      simp only [Bool.or_eq_true, decide_eq_true_eq] at hs
      rcases hs with ((((e | e) | e) | e) | e) | e <;> subst e <;> exact absurd h (by decide)
  · intro heq
    subst heq
    exact absurd h (by decide)

theorem stripComment_no_hash {l : List Char} (h : '#' ∉ l) : stripComment l = (l, []) := by
  unfold stripComment
  rw [splitOn_eq_single h]
  rfl

theorem genField_ok {d p t : String} {ca co : Option String}
    (h1 : isDomainName d = true) (h2 : ¬p = "") (h3 : isValidAccountType t = true) :
    generateLineForField ⟨d, p, t, ca, co⟩ = .ok (fieldLineRaw ⟨d, p, t, ca, co⟩) := by
  unfold generateLineForField fieldLineRaw
  simp only [h1, h3, Bool.not_true, Bool.false_eq_true, if_false, if_neg h2]
  cases co with
  | none => rfl
  | some c =>
    dsimp only
    by_cases hcc : (!c.data.isEmpty) = true
    · rw [if_pos hcc, if_pos hcc]
    · rw [if_neg hcc, if_neg hcc]

theorem genField_missing_pub {f : AdsField} (h1 : isDomainName f.domain = true)
    (h2 : f.publisherAccountID = "") :
    generateLineForField f = .error .missingPublisherID := by
  unfold generateLineForField
  simp only [h1, Bool.not_true, Bool.false_eq_true, if_false, if_pos h2]

theorem generateAdsTxt_ok_parts {m : AdsTxtManifest} {fl vl : List (List Char)}
    (hf : mapE generateLineForField m.fields = .ok fl)
    (hv : mapE (fun kv => generateLineForVariable kv.1 kv.2) m.vars = .ok vl) :
    generateAdsTxt m none none = .ok (String.mk (joinSep ['\n'] (fl ++ vl))) := by
  unfold generateAdsTxt
  rw [hf, hv]

theorem generateAdsTxt_field_err {m : AdsTxtManifest} (header footer : Option String)
    {e : GenErr} (hf : mapE generateLineForField m.fields = .error e) :
    generateAdsTxt m header footer = .error e := by
  unfold generateAdsTxt
  rw [hf]

theorem createDataField_err {l : List Char} {e : ParseErr}
    (h : createDataField l = .error e) : e = .uriError := by
  unfold createDataField at h
  cases hm : mapOpt decodeURIComponentL ((splitOn ',' (stripComment l).1).map trimL) with
  | none =>
    rw [hm] at h
    injection h with h2
    exact h2.symm
  | some decoded =>
    rw [hm] at h
    cases decoded with
    | nil => simp at h
    | cons d rest1 =>
      cases rest1 with
      | nil => simp at h
      | cons p rest2 =>
        cases rest2 with
        | nil => simp at h
        | cons t rest3 => simp at h

theorem processLine_filter_cases (st : ParseState) (line : List Char) :
    (∃ st2, processLine "filter" st line = .ok st2) ∨
      processLine "filter" st line = .error .uriError := by
  unfold processLine
  by_cases h1 : (isComment line || isEmptyLine line) = true
  · rw [if_pos h1]
    exact Or.inl ⟨st, rfl⟩
  · rw [if_neg h1]
    by_cases h2 : isVariableAssignment line = true
    · rw [if_pos h2]
      cases hdec : decodeURIComponentL (varValue line) with
      | some d2 => exact Or.inl ⟨_, rfl⟩
      | none => exact Or.inr rfl
    · rw [if_neg h2]
      by_cases h3 : isDataField line = true
      · rw [if_pos h3]
        cases hc : createDataField line with
        | ok f => exact Or.inl ⟨_, rfl⟩
        | error e =>
          have he := createDataField_err hc
          subst he
          exact Or.inr rfl
      · rw [if_neg h3, if_neg (by decide : ¬(("filter" : String) = "throw"))]
        exact Or.inl ⟨st, rfl⟩

theorem foldE_filter_cases (lines : List (List Char)) :
    ∀ st, (∃ st2, foldE (processLine "filter") st lines = .ok st2) ∨
      foldE (processLine "filter") st lines = .error .uriError := by
  induction lines with
  | nil => intro st; exact Or.inl ⟨st, rfl⟩
  | cons l rest ih =>
    intro st
    rcases processLine_filter_cases st l with ⟨st2, h⟩ | h
    · have hstep : foldE (processLine "filter") st (l :: rest) =
          foldE (processLine "filter") st2 rest := by
        simp [foldE, h]
      rcases ih st2 with ⟨st3, h3⟩ | h3
      · exact Or.inl ⟨st3, by rw [hstep, h3]⟩
      · exact Or.inr (by rw [hstep, h3])
    · exact Or.inr (by simp [foldE, h])

/-- Claim C1, counterexample: under the `filter` policy the parser still
throws a `URIError` when an accepted record field holds a malformed
percent-escape -- `decodeURIComponent` in `createDataField` is not guarded, so
`parseAdsTxt` is not total for arbitrary input. -/
theorem claim_c1_counterexample :
    parseAdsTxt "example.com,%zz,DIRECT" "filter" = .error .uriError := by decide

/-- Claim C1 (amended): `parse(text, {invalidLineAction: "filter"})` never
throws EXCEPT for the `URIError` raised by `decodeURIComponent` on a malformed
percent-escape inside an accepted record field or a variable value: for every
input it either returns a manifest or fails with exactly that URI error (never
an invalid-line or bad-option error). -/
theorem claim_c1_amended (text : String) :
    (∃ m, parseAdsTxt text "filter" = .ok m) ∨
      parseAdsTxt text "filter" = .error .uriError := by
  unfold parseAdsTxt
  rw [if_pos (by decide)]
  rcases foldE_filter_cases (splitNL text.data) ⟨[], []⟩ with ⟨st2, h⟩ | h
  · rw [h]
    exact Or.inl ⟨_, rfl⟩
  · rw [h]
    exact Or.inr rfl

/-- Claim C8, counterexample: a manifest can contain a record with missing
publisher account ID (and valid domain) and still fail with a DIFFERENT error:
when an earlier record fails domain validation, the emitted error is
`invalidDomain`, not the missing-publisher-ID error the claim promises. -/
theorem claim_c8_counterexample :
    generateAdsTxt ⟨[], [⟨"", "x", "DIRECT", none, none⟩,
                         ⟨"example.com", "", "DIRECT", none, none⟩]⟩ none none =
      .error (.invalidDomain "") ∧
    GenErr.invalidDomain "" ≠ GenErr.missingPublisherID := by
  exact ⟨by decide, by decide⟩

/-- Claim C8 (amended): for every manifest containing a record with valid
domain and missing/empty publisherAccountID, generation always fails (the
`Except` model returns an error and no output text), and the error is the
missing-publisher-ID error whenever every field before the offending record
generates successfully. -/
theorem claim_c8_amended (m : AdsTxtManifest) (header footer : Option String)
    (f : AdsField) (pre post : List AdsField) (hsplit : m.fields = pre ++ f :: post)
    (hd : isDomainName f.domain = true) (hp : f.publisherAccountID = "") :
    (∃ e, generateAdsTxt m header footer = .error e) ∧
    ((∀ g ∈ pre, ∃ l2, generateLineForField g = .ok l2) →
      generateAdsTxt m header footer = .error .missingPublisherID) := by
  have hferr : generateLineForField f = .error .missingPublisherID :=
    genField_missing_pub hd hp
  constructor
  · have hmem : f ∈ m.fields := by
      rw [hsplit]
      exact List.mem_append_right _ (List.mem_cons_self _ _)
    have hne : ∀ b, generateLineForField f ≠ .ok b := by
      intro b hb
      rw [hferr] at hb
      exact Except.noConfusion hb
    obtain ⟨e, he⟩ := mapE_exists_error hne hmem
    exact ⟨e, generateAdsTxt_field_err header footer he⟩
  · intro hpre
    have hmap : mapE generateLineForField m.fields = .error .missingPublisherID := by
      rw [hsplit]
      exact mapE_append_first_error hferr post hpre
    exact generateAdsTxt_field_err header footer hmap

/-- Witness for C8's amended theorem: a one-record manifest whose only record
has a valid domain and an empty publisher account ID. -/
theorem claim_c8_witness :
    (∃ e, generateAdsTxt ⟨[], [⟨"example.com", "", "DIRECT", none, none⟩]⟩ none none =
      .error e) ∧
    ((∀ g ∈ ([] : List AdsField), ∃ l2, generateLineForField g = .ok l2) →
      generateAdsTxt ⟨[], [⟨"example.com", "", "DIRECT", none, none⟩]⟩ none none =
        .error .missingPublisherID) :=
  claim_c8_amended ⟨[], [⟨"example.com", "", "DIRECT", none, none⟩]⟩ none none
    ⟨"example.com", "", "DIRECT", none, none⟩ [] [] rfl (by decide) rfl

/-- Claim C9, counterexample: pieces beyond the fourth are NOT free of error
effects -- they are still percent-decoded, so a malformed escape in a
discarded fifth piece faults the whole parse even under `filter`. -/
theorem claim_c9_counterexample :
    parseAdsTxt "example.com,1,DIRECT,ca,%zz" "filter" = .error .uriError := by decide

/-- Claim C9 (amended): a comment-stripped line that comma-splits into more
than four pieces, with a valid domain first piece and valid account-type third
piece, still classifies as a record, and (provided every piece decodes, the
extra pieces included) the created record is built from the first four decoded
pieces only -- the decoded extra pieces appear nowhere in it. -/
theorem claim_c9_amended (line p0 p1 p2 p3 : List Char) (rest : List (List Char))
    (d0 d1 d2 d3 : List Char) (drest : List (List Char))
    (hsp : (splitOn ',' (stripComment line).1).map trimL = p0 :: p1 :: p2 :: p3 :: rest)
    (hdom : isDomainNameL p0 = true) (hacct : isValidAccountTypeL p2 = true)
    (h0 : decodeURIComponentL p0 = some d0) (h1 : decodeURIComponentL p1 = some d1)
    (h2 : decodeURIComponentL p2 = some d2) (h3 : decodeURIComponentL p3 = some d3)
    (hrest : mapOpt decodeURIComponentL rest = some drest) :
    isDataField line = true ∧
    createDataField line =
      .ok ⟨String.mk d0, String.mk d1, String.mk d2, some (String.mk d3),
        commentOpt (stripComment line).2⟩ := by
  have hm : mapOpt decodeURIComponentL (p0 :: p1 :: p2 :: p3 :: rest) =
      some (d0 :: d1 :: d2 :: d3 :: drest) := by
    simp [mapOpt, h0, h1, h2, h3, hrest]
  constructor
  · unfold isDataField
    rw [hsp]
    simp [hdom, hacct]
  · unfold createDataField
    simp only [hsp, hm]
    rfl

/-- Witness for C9's amended theorem: a concrete five-piece line whose fifth
piece `junk` is discarded. -/
theorem claim_c9_witness :
    isDataField "example.com,1,DIRECT,ca,junk".data = true ∧
    createDataField "example.com,1,DIRECT,ca,junk".data =
      .ok ⟨String.mk "example.com".data, String.mk "1".data, String.mk "DIRECT".data,
        some (String.mk "ca".data),
        commentOpt (stripComment "example.com,1,DIRECT,ca,junk".data).2⟩ :=
  claim_c9_amended "example.com,1,DIRECT,ca,junk".data "example.com".data "1".data
    "DIRECT".data "ca".data ["junk".data] "example.com".data "1".data "DIRECT".data
    "ca".data ["junk".data] (by decide) (by decide) (by decide) (by decide) (by decide)
    (by decide) (by decide) (by decide)

theorem commentOpt_ne {x : List Char} {c : String} (h : commentOpt x = some c) : c ≠ "" := by
  unfold commentOpt at h
  split at h
  · rename_i hlen
    intro he
    rw [← Option.some.inj h] at he
    have : x = [] := congrArg String.data he
    rw [this] at hlen
    simp at hlen
  · exact absurd h (by simp)

theorem isDataField_shape {line : List Char} (h : isDataField line = true) :
    ∃ p0 x p2 rest, (splitOn ',' (stripComment line).1).map trimL = p0 :: x :: p2 :: rest ∧
      isDomainNameL p0 = true ∧ isValidAccountTypeL p2 = true := by
  unfold isDataField at h
  cases hp : (splitOn ',' (stripComment line).1).map trimL with
  | nil =>
    rw [hp] at h
    simp at h
  | cons p0 r1 =>
    cases r1 with
    | nil =>
      rw [hp] at h
      simp at h
    | cons x r2 =>
      cases r2 with
      | nil =>
        rw [hp] at h
        simp at h
      | cons p2 rest =>
        rw [hp] at h
        simp only [Bool.and_eq_true] at h
        exact ⟨p0, x, p2, rest, rfl, h.1, h.2⟩

theorem createDataField_good {line : List Char} {f : AdsField}
    (hdf : isDataField line = true) (hcf : createDataField line = .ok f) :
    isDomainName f.domain = true ∧ f.domain ≠ "" ∧
    isValidAccountType f.accountType = true ∧ f.accountType ≠ "" ∧
    (∀ c, f.comment = some c → c ≠ "") := by
  obtain ⟨p0, x, p2, rest, hp, hdom, hacct⟩ := isDataField_shape hdf
  unfold createDataField at hcf
  rw [hp] at hcf
  cases hm : mapOpt decodeURIComponentL (p0 :: x :: p2 :: rest) with
  | none =>
    rw [hm] at hcf
    exact absurd hcf (by simp)
  | some ds =>
    rw [hm] at hcf
    obtain ⟨d0, ds1, hd0, hm1, rfl⟩ := mapOpt_cons_ok hm
    obtain ⟨d1, ds2, hd1, hm2, rfl⟩ := mapOpt_cons_ok hm1
    obtain ⟨d2, ds3, hd2, hm3, rfl⟩ := mapOpt_cons_ok hm2
    have hf : f = ⟨String.mk d0, String.mk d1, String.mk d2, ds3.head?.map String.mk,
        commentOpt (stripComment line).2⟩ := (Except.ok.inj hcf).symm
    have hp0 : d0 = p0 := by
      have hnp : '%' ∉ p0 := domain_not_mem hdom (by decide) (by decide)
      rw [decode_no_pct hnp] at hd0
      exact (Option.some.inj hd0).symm
    have hp2 : d2 = p2 := by
      have hnp : '%' ∉ p2 := acct_not_mem hacct (by decide)
      rw [decode_no_pct hnp] at hd2
      exact (Option.some.inj hd2).symm
    subst hf
    subst hp0
    subst hp2
    refine ⟨?_, ?_, ?_, ?_, ?_⟩
    · show isDomainNameL (String.mk d0).data = true
      exact hdom
    · intro he
      exact domain_ne_nil hdom (congrArg String.data he)
    · show isValidAccountTypeL (String.mk d2).data = true
      exact hacct
    · intro he
      exact acct_ne_nil hacct (congrArg String.data he)
    · intro c hc
      exact commentOpt_ne hc

theorem mem_setVar {vars : List (String × VarValue)} {n : String} {v : VarValue} :
    ∀ kv ∈ setVar vars n v, kv ∈ vars ∨ kv = (n, v) := by
  induction vars with
  | nil =>
    intro kv hkv
    simp only [setVar] at hkv
    exact Or.inr (by simpa using hkv)
  | cons hd rest ih =>
    intro kv hkv
    unfold setVar at hkv
    by_cases hk : hd.1 = n
    · rw [if_pos hk] at hkv
      rcases List.mem_cons.mp hkv with rfl | h2
      · exact Or.inr (by rw [hk])
      · exact Or.inl (List.mem_cons_of_mem _ h2)
    · rw [if_neg hk] at hkv
      rcases List.mem_cons.mp hkv with rfl | h2
      · exact Or.inl (List.mem_cons_self _ _)
      · rcases ih kv h2 with h3 | h3
        · exact Or.inl (List.mem_cons_of_mem _ h3)
        · exact Or.inr h3

theorem addVar_good {vars : List (String × VarValue)} {n : String} {v : String}
    (h : ∀ kv ∈ vars, goodVarValue kv.2) : ∀ kv ∈ addVar vars n v, goodVarValue kv.2 := by
  intro kv hm
  unfold addVar at hm
  cases hl : lookupVar vars n with
  | none =>
    rw [hl] at hm
    rcases mem_setVar kv hm with h2 | h2
    · exact h kv h2
    · rw [h2]
      exact Or.inl ⟨v, rfl⟩
  | some w =>
    rw [hl] at hm
    cases w with
    | str s =>
      rcases mem_setVar kv hm with h2 | h2
      · exact h kv h2
      · rw [h2]
        exact Or.inr ⟨[s, v], rfl, by simp⟩
    | arr l2 =>
      rcases mem_setVar kv hm with h2 | h2
      · exact h kv h2
      · rw [h2]
        exact Or.inr ⟨l2 ++ [v], rfl, by simp⟩
    | other =>
      rcases mem_setVar kv hm with h2 | h2
      · exact h kv h2
      · rw [h2]
        exact Or.inl ⟨v, rfl⟩

theorem processLine_good {ila : String} {st st2 : ParseState} {line : List Char}
    (h : processLine ila st line = .ok st2) (hg : goodState st) : goodState st2 := by
  unfold processLine at h
  by_cases h1 : (isComment line || isEmptyLine line) = true
  · rw [if_pos h1] at h
    rw [← Except.ok.inj h]
    exact hg
  · rw [if_neg h1] at h
    by_cases h2 : isVariableAssignment line = true
    · rw [if_pos h2] at h
      cases hdec : decodeURIComponentL (varValue line) with
      | none =>
        rw [hdec] at h
        exact absurd h (by simp)
      | some dv =>
        rw [hdec] at h
        rw [← Except.ok.inj h]
        exact ⟨hg.1, addVar_good hg.2⟩
    · rw [if_neg h2] at h
      by_cases h3 : isDataField line = true
      · rw [if_pos h3] at h
        cases hc : createDataField line with
        | error e =>
          rw [hc] at h
          exact absurd h (by simp)
        | ok f =>
          rw [hc] at h
          rw [← Except.ok.inj h]
          refine ⟨?_, hg.2⟩
          intro g hgm
          rcases List.mem_append.mp hgm with hin | hin
          · exact hg.1 g hin
          · rw [List.mem_singleton.mp hin]
            exact createDataField_good h3 hc
      · rw [if_neg h3] at h
        by_cases h4 : ila = "throw"
        · rw [if_pos h4] at h
          exact absurd h (by simp)
        · rw [if_neg h4] at h
          rw [← Except.ok.inj h]
          exact hg

theorem foldE_good {ila : String} :
    ∀ {lines : List (List Char)} {st st2 : ParseState},
      foldE (processLine ila) st lines = .ok st2 → goodState st → goodState st2 := by
  intro lines
  induction lines with
  | nil =>
    intro st st2 h hg
    rw [← Except.ok.inj h]
    exact hg
  | cons l rest ih =>
    intro st st2 h hg
    cases hp : processLine ila st l with
    | error e =>
      simp only [foldE, hp] at h
      exact absurd h (by simp)
    | ok stm =>
      simp only [foldE, hp] at h
      exact ih h (processLine_good hp hg)

/-- Claim C4, counterexample: the line `example.com,,direct` parses (only the
first and third pieces are validated), yielding a record whose
publisherAccountID is the EMPTY string and whose accountType `"direct"` is
neither `"DIRECT"` nor `"RESELLER"` -- two of the claimed invariants fail. -/
theorem claim_c4_counterexample :
    parseAdsTxt "example.com,,direct" "filter" =
      .ok ⟨[], [⟨"example.com", "", "direct", none, none⟩]⟩ ∧
    ("direct" : String) ≠ "DIRECT" ∧ ("direct" : String) ≠ "RESELLER" := by
  exact ⟨by decide, by decide, by decide⟩

/-- Claim C4 (amended): after a successful parse every record has a non-empty,
well-formed domain and a non-empty accountType that is case-insensitively
DIRECT or RESELLER (but possibly not upper-case, and publisherAccountID may be
empty); comment, when present, is non-empty; and every variables value is a
string or a non-empty ordered sequence of strings. -/
theorem claim_c4_amended (text ila : String) (m : AdsTxtManifest)
    (h : parseAdsTxt text ila = .ok m) :
    (∀ f ∈ m.fields, isDomainName f.domain = true ∧ f.domain ≠ "" ∧
      isValidAccountType f.accountType = true ∧ f.accountType ≠ "" ∧
      (∀ c, f.comment = some c → c ≠ "")) ∧
    (∀ kv ∈ m.vars, (∃ s, kv.2 = VarValue.str s) ∨
      ∃ l2, kv.2 = VarValue.arr l2 ∧ l2 ≠ []) := by
  unfold parseAdsTxt at h
  by_cases hopt : (ila = "filter" || ila = "throw") = true
  · rw [if_pos hopt] at h
    cases hf : foldE (processLine ila) ⟨[], []⟩ (splitNL text.data) with
    | error e =>
      rw [hf] at h
      exact absurd h (by simp)
    | ok st =>
      rw [hf] at h
      have hg : goodState st :=
        foldE_good hf ⟨fun f hf2 => absurd hf2 (List.not_mem_nil f),
          fun kv hkv => absurd hkv (List.not_mem_nil kv)⟩
      rw [← Except.ok.inj h]
      exact ⟨hg.1, fun kv hkv => hg.2 kv hkv⟩
  · rw [if_neg hopt] at h
    exact absurd h (by simp)

/-- Witness for C4's amended theorem on a parse producing one record with a
comment and one accumulated variable. -/
theorem claim_c4_witness :
    (∀ f ∈ ([⟨"example.com", "1", "DIRECT", none, some "hi"⟩] : List AdsField),
      isDomainName f.domain = true ∧ f.domain ≠ "" ∧
      isValidAccountType f.accountType = true ∧ f.accountType ≠ "" ∧
      (∀ c, f.comment = some c → c ≠ "")) ∧
    (∀ kv ∈ ([("CONTACT", VarValue.arr ["me", "you"])] : List (String × VarValue)),
      (∃ s, kv.2 = VarValue.str s) ∨ ∃ l2, kv.2 = VarValue.arr l2 ∧ l2 ≠ []) :=
  claim_c4_amended "example.com,1,DIRECT #hi\nCONTACT=me\nCONTACT=you" "filter"
    ⟨[("CONTACT", VarValue.arr ["me", "you"])],
     [⟨"example.com", "1", "DIRECT", none, some "hi"⟩]⟩ (by decide)

theorem lookupVar_setVar_self (vars : List (String × VarValue)) (n : String) (v : VarValue) :
    lookupVar (setVar vars n v) n = some v := by
  induction vars with
  | nil => simp [setVar, lookupVar]
  | cons hd rest ih =>
    unfold setVar
    by_cases hk : hd.1 = n
    · rw [if_pos hk]
      unfold lookupVar
      rw [if_pos hk]
    · rw [if_neg hk]
      unfold lookupVar
      rw [if_neg hk]
      exact ih

theorem lookupVar_setVar_ne (vars : List (String × VarValue)) {n n2 : String}
    (v : VarValue) (h : n ≠ n2) :
    lookupVar (setVar vars n v) n2 = lookupVar vars n2 := by
  induction vars with
  | nil =>
    simp only [setVar, lookupVar]
    rw [if_neg h]
  | cons hd rest ih =>
    unfold setVar
    by_cases hk : hd.1 = n
    · rw [if_pos hk]
      unfold lookupVar
      by_cases hk2 : hd.1 = n2
      · exact absurd (hk.symm.trans hk2) h
      · rw [if_neg hk2, if_neg hk2]
    · rw [if_neg hk]
      unfold lookupVar
      by_cases hk2 : hd.1 = n2
      · rw [if_pos hk2, if_pos hk2]
      · rw [if_neg hk2, if_neg hk2]
        exact ih

theorem setVar_append_not_found {vars : List (String × VarValue)} {n : String}
    (v : VarValue) (h : lookupVar vars n = none) : setVar vars n v = vars ++ [(n, v)] := by
  induction vars with
  | nil => rfl
  | cons hd rest ih =>
    unfold lookupVar at h
    by_cases hk : hd.1 = n
    · rw [if_pos hk] at h
      exact absurd h (by simp)
    · rw [if_neg hk] at h
      unfold setVar
      rw [if_neg hk, ih h, List.cons_append]

theorem lookupVar_addVar_self {vars : List (String × VarValue)} {n : String} {v : String}
    {pre : List String} (h : lookupVar vars n = accumRepr pre) :
    lookupVar (addVar vars n v) n = accumRepr (pre ++ [v]) := by
  unfold addVar
  cases pre with
  | nil =>
    rw [h]
    exact lookupVar_setVar_self vars n _
  | cons a pre2 =>
    cases pre2 with
    | nil =>
      rw [h]
      exact lookupVar_setVar_self vars n _
    | cons b t =>
      rw [h]
      exact lookupVar_setVar_self vars n _

theorem lookupVar_addVar_ne {vars : List (String × VarValue)} {n n2 : String} {v : String}
    (h : n ≠ n2) : lookupVar (addVar vars n v) n2 = lookupVar vars n2 := by
  unfold addVar
  cases hl : lookupVar vars n with
  | none => exact lookupVar_setVar_ne vars _ h
  | some w => cases w <;> exact lookupVar_setVar_ne vars _ h

theorem isVar_not_comment {l : List Char} (h : isVariableAssignment l = true) :
    isComment l = false ∧ isEmptyLine l = false := by
  obtain ⟨n, v, hl, hn, hall, hv⟩ := isVar_shape h
  obtain ⟨c, n2, rfl⟩ : ∃ c n2, n = c :: n2 := by
    cases n with
    | nil => exact absurd rfl hn
    | cons a b => exact ⟨a, b, rfl⟩
  have hca : isAsciiAlpha c = true := hall c (List.mem_cons_self _ _)
  have hfacts := alnum_head_facts (x := c) (by simp [hca])
  subst hl
  rw [List.cons_append]
  exact ⟨isComment_cons_false _ hfacts.1 hfacts.2, isEmptyLine_cons_false _ hfacts.1⟩

theorem foldE_var_accum (ila : String) (name : String) :
    ∀ (lines : List (List Char)) (st st2 : ParseState),
      foldE (processLine ila) st lines = .ok st2 →
      ∀ pre, lookupVar st.vars name = accumRepr pre →
      ∃ vs, mapOpt decodeURIComponentL (varRawValues name lines) = some vs ∧
        lookupVar st2.vars name = accumRepr (pre ++ vs.map String.mk) := by
  intro lines
  induction lines with
  | nil =>
    intro st st2 h pre hpre
    rw [← Except.ok.inj h]
    exact ⟨[], rfl, by simpa using hpre⟩
  | cons l rest ih =>
    intro st st2 h pre hpre
    cases hp : processLine ila st l with
    | error e =>
      simp only [foldE, hp] at h
      exact absurd h (by simp)
    | ok stm =>
      simp only [foldE, hp] at h
      by_cases hv : isVariableAssignment l = true
      · obtain ⟨hcf, hef⟩ := isVar_not_comment hv
        unfold processLine at hp
        rw [if_neg (by simp [hcf, hef]), if_pos hv] at hp
        cases hdec : decodeURIComponentL (varValue l) with
        | none =>
          rw [hdec] at hp
          exact absurd hp (by simp)
        | some dv =>
          rw [hdec] at hp
          have hstm := Except.ok.inj hp
          by_cases hname : varName l = name.data
          · have hraw : varRawValues name (l :: rest) =
                varValue l :: varRawValues name rest := by
              unfold varRawValues
              rw [List.filterMap_cons]
              simp [hv, hname]
            have hkey : String.mk (varName l) = name := by
              rw [hname]
            have hlook : lookupVar stm.vars name = accumRepr (pre ++ [String.mk dv]) := by
              rw [← hstm]
              show lookupVar (addVar st.vars (String.mk (varName l)) (String.mk dv)) name =
                accumRepr (pre ++ [String.mk dv])
              rw [hkey]
              exact lookupVar_addVar_self hpre
            obtain ⟨vs, hvs, hl2⟩ := ih stm st2 h (pre ++ [String.mk dv]) hlook
            refine ⟨dv :: vs, ?_, ?_⟩
            · rw [hraw]
              simp [mapOpt, hdec, hvs]
            · rw [hl2, List.map_cons, List.append_assoc]
              rfl
          · have hraw : varRawValues name (l :: rest) = varRawValues name rest := by
              unfold varRawValues
              rw [List.filterMap_cons]
              simp [hname]
            have hkey : String.mk (varName l) ≠ name := by
              intro he
              exact hname (congrArg String.data he)
            have hlook : lookupVar stm.vars name = accumRepr pre := by
              rw [← hstm]
              show lookupVar (addVar st.vars (String.mk (varName l)) (String.mk dv)) name =
                accumRepr pre
              rw [lookupVar_addVar_ne hkey]
              exact hpre
            obtain ⟨vs, hvs, hl2⟩ := ih stm st2 h pre hlook
            exact ⟨vs, by rw [hraw]; exact hvs, hl2⟩
      · have hvf : isVariableAssignment l = false := by
          cases hvb : isVariableAssignment l
          · rfl
          · exact absurd hvb hv
        have hraw : varRawValues name (l :: rest) = varRawValues name rest := by
          unfold varRawValues
          rw [List.filterMap_cons]
          simp [hvf]
        have hvars_eq : stm.vars = st.vars := by
          unfold processLine at hp
          by_cases h1 : (isComment l || isEmptyLine l) = true
          · rw [if_pos h1] at hp
            rw [← Except.ok.inj hp]
          · rw [if_neg h1, if_neg hv] at hp
            by_cases h3 : isDataField l = true
            · rw [if_pos h3] at hp
              cases hc : createDataField l with
              | error e =>
                rw [hc] at hp
                exact absurd hp (by simp)
              | ok f2 =>
                rw [hc] at hp
                rw [← Except.ok.inj hp]
            · rw [if_neg h3] at hp
              by_cases h4 : ila = "throw"
              · rw [if_pos h4] at hp
                exact absurd hp (by simp)
              · rw [if_neg h4] at hp
                rw [← Except.ok.inj hp]
        obtain ⟨vs, hvs, hl2⟩ := ih stm st2 h pre (by rw [hvars_eq]; exact hpre)
        exact ⟨vs, by rw [hraw]; exact hvs, hl2⟩

/-- Claim C7: repeated variable assignments accumulate in source order: for
every successful parse and every name, the percent-decoded values of the lines
matching the variable pattern for that name (in order) determine the stored
entry via `accumRepr` -- absent for zero occurrences, the single decoded value
as a scalar string for one occurrence, and the ordered array of all decoded
values (length = occurrence count) for two or more. -/
theorem claim_c7_accumulation (text ila : String) (m : AdsTxtManifest) (name : String)
    (h : parseAdsTxt text ila = .ok m) :
    ∃ vs, mapOpt decodeURIComponentL (varRawValues name (splitNL text.data)) = some vs ∧
      lookupVar m.vars name = accumRepr (vs.map String.mk) := by
  unfold parseAdsTxt at h
  by_cases hopt : (ila = "filter" || ila = "throw") = true
  · rw [if_pos hopt] at h
    cases hf : foldE (processLine ila) ⟨[], []⟩ (splitNL text.data) with
    | error e =>
      rw [hf] at h
      exact absurd h (by simp)
    | ok st =>
      rw [hf] at h
      obtain ⟨vs, h1, h2⟩ := foldE_var_accum ila name (splitNL text.data) ⟨[], []⟩ st hf [] rfl
      rw [← Except.ok.inj h]
      exact ⟨vs, h1, h2⟩
  · rw [if_neg hopt] at h
    exact absurd h (by simp)

/-- Witness for C7 at a parse with three `a=` assignments and one `b=`,
checked at `name = "a"`. -/
theorem claim_c7_witness :
    ∃ vs, mapOpt decodeURIComponentL
        (varRawValues "a" (splitNL "a=1\nexample.com,1,DIRECT\na=2\nb=9\na=3".data)) =
        some vs ∧
      lookupVar (AdsTxtManifest.mk [("a", VarValue.arr ["1", "2", "3"]), ("b", VarValue.str "9")]
        [⟨"example.com", "1", "DIRECT", none, none⟩]).vars "a" =
        accumRepr (vs.map String.mk) :=
  claim_c7_accumulation "a=1\nexample.com,1,DIRECT\na=2\nb=9\na=3" "filter"
    ⟨[("a", VarValue.arr ["1", "2", "3"]), ("b", VarValue.str "9")],
     [⟨"example.com", "1", "DIRECT", none, none⟩]⟩ "a" (by decide)

theorem cleanField_parts {f : AdsField} (h : cleanField f = true) :
    isDomainName f.domain = true ∧ f.publisherAccountID ≠ "" ∧
    f.publisherAccountID.data.all cleanPieceChar = true ∧
    trimL f.publisherAccountID.data = f.publisherAccountID.data ∧
    isValidAccountType f.accountType = true ∧
    (f.certificateAuthorityID = none ∨ ∃ c, f.certificateAuthorityID = some c ∧
      c.data ≠ [] ∧ c.data.all cleanPieceChar = true ∧ trimL c.data = c.data) ∧
    f.comment = none := by
  unfold cleanField at h
  simp only [Bool.and_eq_true] at h
  obtain ⟨⟨⟨⟨⟨⟨h1, h2⟩, h3⟩, h4⟩, h5⟩, h6⟩, h7⟩ := h
  refine ⟨h1, ?_, h3, eq_of_beq h4, h5, ?_, Option.isNone_iff_eq_none.mp h7⟩
  · intro he
    rw [he] at h2
    exact absurd h2 (by decide)
  · cases hca : f.certificateAuthorityID with
    | none => exact Or.inl rfl
    | some c =>
      rw [hca] at h6
      simp only [Bool.and_eq_true] at h6
      obtain ⟨⟨hc1, hc2⟩, hc3⟩ := h6
      refine Or.inr ⟨c, rfl, ?_, hc2, eq_of_beq hc3⟩
      intro he
      rw [he] at hc1
      exact absurd hc1 (by decide)

theorem cleanVar_parts {kv : String × VarValue} (h : cleanVar kv = true) :
    kv.1.data ≠ [] ∧ (∀ c ∈ kv.1.data, isAsciiAlpha c = true) ∧
    ∃ s, kv.2 = VarValue.str s ∧ s.data ≠ [] ∧
      s.data.all (fun c => !(c = '%' || c = '\r' || c = '\n')) = true := by
  unfold cleanVar at h
  cases hv : kv.2 with
  | str s =>
    rw [hv] at h
    simp only [Bool.and_eq_true] at h
    obtain ⟨⟨h1, h2⟩, ⟨h3, h4⟩⟩ := h
    refine ⟨?_, fun c hc => (List.all_eq_true.mp h2) c hc, s, rfl, ?_, h4⟩
    · intro he
      rw [he] at h1
      exact absurd h1 (by decide)
    · intro he
      rw [he] at h3
      exact absurd h3 (by decide)
  | arr l2 =>
    rw [hv] at h
    simp at h
  | other =>
    rw [hv] at h
    simp at h

theorem cleanPiece_not_mem {l : List Char} (h : l.all cleanPieceChar = true) :
    ',' ∉ l ∧ '#' ∉ l ∧ '%' ∉ l ∧ '\r' ∉ l ∧ '\n' ∉ l :=
  ⟨all_not_mem h (by decide), all_not_mem h (by decide), all_not_mem h (by decide),
   all_not_mem h (by decide), all_not_mem h (by decide)⟩

theorem domain_not_special {d : List Char} (h : isDomainNameL d = true) :
    ',' ∉ d ∧ '#' ∉ d ∧ '%' ∉ d ∧ '\r' ∉ d ∧ '\n' ∉ d ∧ '=' ∉ d :=
  ⟨domain_not_mem h (by decide) (by decide), domain_not_mem h (by decide) (by decide),
   domain_not_mem h (by decide) (by decide), domain_not_mem h (by decide) (by decide),
   domain_not_mem h (by decide) (by decide), domain_not_mem h (by decide) (by decide)⟩

theorem acct_not_special {t : List Char} (h : isValidAccountTypeL t = true) :
    ',' ∉ t ∧ '#' ∉ t ∧ '%' ∉ t ∧ '\r' ∉ t ∧ '\n' ∉ t :=
  ⟨acct_not_mem h (by decide), acct_not_mem h (by decide), acct_not_mem h (by decide),
   acct_not_mem h (by decide), acct_not_mem h (by decide)⟩

theorem genField_clean {f : AdsField} (h : cleanField f = true) :
    generateLineForField f = .ok (fieldLineRaw f) := by
  obtain ⟨fd, fp, ft, fca, fco⟩ := f
  obtain ⟨h1, h2, _, _, h5, _, _⟩ := cleanField_parts h
  exact genField_ok h1 h2 h5

theorem mapE_fieldlines {fields : List AdsField} (h : ∀ f ∈ fields, cleanField f = true) :
    mapE generateLineForField fields = .ok (fields.map fieldLineRaw) :=
  mapE_congr_ok (fun f hf => genField_clean (h f hf))

theorem mapE_varlines {vars : List (String × VarValue)} (h : ∀ kv ∈ vars, cleanVar kv = true) :
    mapE (fun kv => generateLineForVariable kv.1 kv.2) vars = .ok (vars.map varLineOf) := by
  apply mapE_congr_ok
  intro kv hkv
  obtain ⟨_, _, s, hs, _, _⟩ := cleanVar_parts (h kv hkv)
  show generateLineForVariable kv.1 kv.2 = .ok (varLineOf kv)
  rw [hs]
  unfold generateLineForVariable varLineOf
  rw [hs]

theorem processLine_varLine (ila : String) (st : ParseState) {k v : List Char}
    (hk : k ≠ []) (hka : ∀ c ∈ k, isAsciiAlpha c = true) (hv : v ≠ []) (hvp : '%' ∉ v) :
    processLine ila st (k ++ '=' :: v) =
      .ok { st with vars := addVar st.vars (String.mk k) (String.mk v) } := by
  obtain ⟨hiv, hn, hval⟩ := isVar_of_shape hk hka hv
  obtain ⟨hic, hie⟩ := isVar_not_comment hiv
  unfold processLine
  rw [if_neg (by simp [hic, hie]), if_pos hiv, hval, decode_no_pct hvp, hn]

theorem lookupVar_append_singleton {a : List (String × VarValue)} {n k : String}
    {w : VarValue} (h1 : lookupVar a n = none) (h2 : k ≠ n) :
    lookupVar (a ++ [(k, w)]) n = none := by
  induction a with
  | nil =>
    simp only [List.nil_append, lookupVar]
    rw [if_neg h2]
  | cons hd rest ih =>
    unfold lookupVar at h1 ⊢
    by_cases hk : hd.1 = n
    · rw [if_pos hk] at h1
      exact absurd h1 (by simp)
    · rw [if_neg hk] at h1
      rw [List.cons_append]
      show lookupVar ((hd.1, hd.2) :: (rest ++ [(k, w)])) n = none
      unfold lookupVar
      rw [if_neg hk]
      exact ih h1

theorem not_mem_cons_char {b ch : Char} {X : List Char} (h1 : b ≠ ch) (h2 : b ∉ X) :
    b ∉ ch :: X := by
  intro hm
  rcases List.mem_cons.mp hm with he | hm2
  · exact h1 he
  · exact h2 hm2

theorem fieldLine_not_mem_gen {fd fp ft : String} {fca : Option String} {b : Char}
    (hfd : b ∉ fd.data) (hfp : b ∉ fp.data) (hft : b ∉ ft.data)
    (hca : ∀ c2, fca = some c2 → b ∉ c2.data) (hbs : b ∉ ([',', ' '] : List Char)) :
    b ∉ fieldLineRaw ⟨fd, fp, ft, fca, none⟩ := by
  unfold fieldLineRaw
  dsimp only
  cases fca with
  | none =>
    exact List.not_mem_append (List.not_mem_append (List.not_mem_append
      (List.not_mem_append hfd hbs) hfp) hbs) hft
  | some c2 =>
    dsimp only
    by_cases hce : (!c2.data.isEmpty) = true
    · rw [if_pos hce]
      exact List.not_mem_append (List.not_mem_append (List.not_mem_append
        (List.not_mem_append (List.not_mem_append (List.not_mem_append hfd hbs) hfp) hbs)
        hft) hbs) (hca c2 rfl)
    · rw [if_neg hce]
      exact List.not_mem_append (List.not_mem_append (List.not_mem_append
        (List.not_mem_append hfd hbs) hfp) hbs) hft

theorem fieldLine_noNL {f : AdsField} (h : cleanField f = true) :
    '\n' ∉ fieldLineRaw f ∧ '\r' ∉ fieldLineRaw f := by
  obtain ⟨fd, fp, ft, fca, fco⟩ := f
  obtain ⟨h1, _, h3, _, h5, h6, h7⟩ := cleanField_parts h
  have hco : fco = none := h7
  subst hco
  have hd := domain_not_special h1
  have hp := cleanPiece_not_mem h3
  have ht := acct_not_special h5
  have hcaN : ∀ c2 : String, fca = some c2 → '\n' ∉ c2.data ∧ '\r' ∉ c2.data := by
    intro c2 hc2
    rcases h6 with he | ⟨c3, he, _, hall, _⟩
    · have he2 : fca = none := he
      rw [he2] at hc2
      exact absurd hc2 (by simp)
    · have he2 : fca = some c3 := he
      rw [he2] at hc2
      rw [← Option.some.inj hc2]
      have hps := cleanPiece_not_mem hall
      exact ⟨hps.2.2.2.2, hps.2.2.2.1⟩
  constructor
  · exact fieldLine_not_mem_gen hd.2.2.2.2.1 hp.2.2.2.2 ht.2.2.2.2
      (fun c2 hc2 => (hcaN c2 hc2).1) (by decide)
  · exact fieldLine_not_mem_gen hd.2.2.2.1 hp.2.2.2.1 ht.2.2.2.1
      (fun c2 hc2 => (hcaN c2 hc2).2) (by decide)

theorem varLine_noNL {kv : String × VarValue} (h : cleanVar kv = true) :
    '\n' ∉ varLineOf kv ∧ '\r' ∉ varLineOf kv := by
  obtain ⟨hk1, hka, s, hs, hs1, hs2⟩ := cleanVar_parts h
  have hkn : ∀ b : Char, isAsciiAlpha b = false → b ∉ kv.1.data := by
    intro b hb hm
    rw [hka b hm] at hb
    cases hb
  have hsn : '\n' ∉ s.data := all_not_mem hs2 (by decide)
  have hsr : '\r' ∉ s.data := all_not_mem hs2 (by decide)
  unfold varLineOf
  rw [hs]
  constructor
  · exact List.not_mem_append (hkn _ (by decide)) (not_mem_cons_char (by decide) hsn)
  · exact List.not_mem_append (hkn _ (by decide)) (not_mem_cons_char (by decide) hsr)

theorem splitNL_joinSep :
    ∀ {lines : List (List Char)}, lines ≠ [] → (∀ l ∈ lines, '\n' ∉ l ∧ '\r' ∉ l) →
      splitNL (joinSep ['\n'] lines) = lines := by
  intro lines
  induction lines with
  | nil =>
    intro h _
    exact absurd rfl h
  | cons l rest ih =>
    intro _ hall
    cases rest with
    | nil =>
      show splitNL (joinSep ['\n'] [l]) = [l]
      exact splitNL_eq_single (hall l (List.mem_cons_self _ _)).1
        (hall l (List.mem_cons_self _ _)).2
    | cons l2 rest2 =>
      have hj : joinSep ['\n'] (l :: l2 :: rest2) =
          l ++ '\n' :: joinSep ['\n'] (l2 :: rest2) := by
        show (l ++ ['\n']) ++ joinSep ['\n'] (l2 :: rest2) =
          l ++ '\n' :: joinSep ['\n'] (l2 :: rest2)
        rw [List.append_assoc]
        rfl
      rw [hj, splitNL_append _ (hall l (List.mem_cons_self _ _)).1
        (hall l (List.mem_cons_self _ _)).2,
        ih (by simp) (fun x hx => hall x (List.mem_cons_of_mem _ hx))]

theorem processLine_fieldLine (ila : String) (st : ParseState) {f : AdsField}
    (h : cleanField f = true) :
    processLine ila st (fieldLineRaw f) =
      .ok { st with dataFields := st.dataFields ++ [f] } := by
  obtain ⟨fd, fp, ft, fca, fco⟩ := f
  obtain ⟨h1, h2, h3, h4, h5, h6, h7⟩ := cleanField_parts h
  have h1' : isDomainNameL fd.data = true := h1
  have h5' : isValidAccountTypeL ft.data = true := h5
  have h4' : trimL fp.data = fp.data := h4
  have hco : fco = none := h7
  subst hco
  have hdns := domain_not_special h1'
  have hps := cleanPiece_not_mem h3
  have hts := acct_not_special h5'
  have hdt : trimL fd.data = fd.data := trimL_no_space (domain_no_space h1')
  have htt : trimL ft.data = ft.data := trimL_no_space (acct_no_space h5')
  obtain ⟨x, d2, hdx, hx⟩ := domain_head_alnum h1'
  have hxf := alnum_head_facts hx
  have hcp : ',' ∉ (' ' :: fp.data) := not_mem_cons_char (by decide) hps.1
  have hct : ',' ∉ (' ' :: ft.data) := not_mem_cons_char (by decide) hts.1
  rcases h6 with hcae | ⟨c, hcae, hc1, hc2, hc3⟩
  · have hcae2 : fca = none := hcae
    subst hcae2
    have hL : fieldLineRaw ⟨fd, fp, ft, none, none⟩ =
        fd.data ++ ',' :: ((' ' :: fp.data) ++ ',' :: (' ' :: ft.data)) := by
      show fd.data ++ [',', ' '] ++ fp.data ++ [',', ' '] ++ ft.data =
        fd.data ++ ',' :: ((' ' :: fp.data) ++ ',' :: (' ' :: ft.data))
      simp [List.append_assoc]
    rw [hL]
    have hnh : '#' ∉ fd.data ++ ',' :: ((' ' :: fp.data) ++ ',' :: (' ' :: ft.data)) :=
      List.not_mem_append hdns.2.1 (not_mem_cons_char (by decide)
        (List.not_mem_append (not_mem_cons_char (by decide) hps.2.1)
          (not_mem_cons_char (by decide) (not_mem_cons_char (by decide) hts.2.1))))
    have hsc := stripComment_no_hash hnh
    have hsp : (splitOn ','
        (fd.data ++ ',' :: ((' ' :: fp.data) ++ ',' :: (' ' :: ft.data)))).map trimL =
        [fd.data, fp.data, ft.data] := by
      rw [splitOn_append _ hdns.1, splitOn_append _ hcp, splitOn_eq_single hct]
      simp [hdt, trimL_cons_space h4', trimL_cons_space htt]
    have hidf : isDataField
        (fd.data ++ ',' :: ((' ' :: fp.data) ++ ',' :: (' ' :: ft.data))) = true := by
      unfold isDataField
      simp only [hsc]
      rw [hsp]
      simp [h1', h5']
    have hdec : mapOpt decodeURIComponentL [fd.data, fp.data, ft.data] =
        some [fd.data, fp.data, ft.data] := by
      simp [mapOpt, decode_no_pct hdns.2.2.1, decode_no_pct hps.2.2.1,
        decode_no_pct hts.2.2.1]
    have hcdf : createDataField
        (fd.data ++ ',' :: ((' ' :: fp.data) ++ ',' :: (' ' :: ft.data))) =
        .ok ⟨fd, fp, ft, none, none⟩ := by
      unfold createDataField
      simp only [hsc]
      rw [hsp, hdec]
      rfl
    have hnc : isComment
        (fd.data ++ ',' :: ((' ' :: fp.data) ++ ',' :: (' ' :: ft.data))) = false := by
      rw [hdx, List.cons_append]
      exact isComment_cons_false _ hxf.1 hxf.2
    have hne : isEmptyLine
        (fd.data ++ ',' :: ((' ' :: fp.data) ++ ',' :: (' ' :: ft.data))) = false := by
      rw [hdx, List.cons_append]
      exact isEmptyLine_cons_false _ hxf.1
    have hnv : isVariableAssignment
        (fd.data ++ ',' :: ((' ' :: fp.data) ++ ',' :: (' ' :: ft.data))) = false :=
      isVar_false_of ⟨'.', domain_has_dot h1', by decide⟩ hdns.2.2.2.2.2
    unfold processLine
    rw [if_neg (by rw [hnc, hne]; decide), if_neg (by rw [hnv]; decide), if_pos hidf, hcdf]
  · have hcae2 : fca = some c := hcae
    subst hcae2
    have hcs := cleanPiece_not_mem hc2
    have hctr : trimL c.data = c.data := hc3
    have hcc : ',' ∉ (' ' :: c.data) := not_mem_cons_char (by decide) hcs.1
    have hce : (!c.data.isEmpty) = true := by
      cases hcd : c.data with
      | nil => exact absurd hcd hc1
      | cons a b => simp
    have hL : fieldLineRaw ⟨fd, fp, ft, some c, none⟩ =
        fd.data ++ ',' :: ((' ' :: fp.data) ++ ',' ::
          ((' ' :: ft.data) ++ ',' :: (' ' :: c.data))) := by
      show (if (!c.data.isEmpty) = true then
          fd.data ++ [',', ' '] ++ fp.data ++ [',', ' '] ++ ft.data ++ [',', ' '] ++ c.data
        else fd.data ++ [',', ' '] ++ fp.data ++ [',', ' '] ++ ft.data) =
        fd.data ++ ',' :: ((' ' :: fp.data) ++ ',' ::
          ((' ' :: ft.data) ++ ',' :: (' ' :: c.data)))
      rw [if_pos hce]
      simp [List.append_assoc]
    rw [hL]
    have hnh : '#' ∉ fd.data ++ ',' :: ((' ' :: fp.data) ++ ',' ::
        ((' ' :: ft.data) ++ ',' :: (' ' :: c.data))) :=
      List.not_mem_append hdns.2.1 (not_mem_cons_char (by decide)
        (List.not_mem_append (not_mem_cons_char (by decide) hps.2.1)
          (not_mem_cons_char (by decide)
            (List.not_mem_append (not_mem_cons_char (by decide) hts.2.1)
              (not_mem_cons_char (by decide) (not_mem_cons_char (by decide) hcs.2.1))))))
    have hsc := stripComment_no_hash hnh
    have hsp : (splitOn ',' (fd.data ++ ',' :: ((' ' :: fp.data) ++ ',' ::
        ((' ' :: ft.data) ++ ',' :: (' ' :: c.data))))).map trimL =
        [fd.data, fp.data, ft.data, c.data] := by
      rw [splitOn_append _ hdns.1, splitOn_append _ hcp, splitOn_append _ hct,
        splitOn_eq_single hcc]
      simp [hdt, trimL_cons_space h4', trimL_cons_space htt, trimL_cons_space hctr]
    have hidf : isDataField (fd.data ++ ',' :: ((' ' :: fp.data) ++ ',' ::
        ((' ' :: ft.data) ++ ',' :: (' ' :: c.data)))) = true := by
      unfold isDataField
      simp only [hsc]
      rw [hsp]
      simp [h1', h5']
    have hdec : mapOpt decodeURIComponentL [fd.data, fp.data, ft.data, c.data] =
        some [fd.data, fp.data, ft.data, c.data] := by
      simp [mapOpt, decode_no_pct hdns.2.2.1, decode_no_pct hps.2.2.1,
        decode_no_pct hts.2.2.1, decode_no_pct hcs.2.2.1]
    have hcdf : createDataField (fd.data ++ ',' :: ((' ' :: fp.data) ++ ',' ::
        ((' ' :: ft.data) ++ ',' :: (' ' :: c.data)))) =
        .ok ⟨fd, fp, ft, some c, none⟩ := by
      unfold createDataField
      simp only [hsc]
      rw [hsp, hdec]
      rfl
    have hnc : isComment (fd.data ++ ',' :: ((' ' :: fp.data) ++ ',' ::
        ((' ' :: ft.data) ++ ',' :: (' ' :: c.data)))) = false := by
      rw [hdx, List.cons_append]
      exact isComment_cons_false _ hxf.1 hxf.2
    have hne : isEmptyLine (fd.data ++ ',' :: ((' ' :: fp.data) ++ ',' ::
        ((' ' :: ft.data) ++ ',' :: (' ' :: c.data)))) = false := by
      rw [hdx, List.cons_append]
      exact isEmptyLine_cons_false _ hxf.1
    have hnv : isVariableAssignment (fd.data ++ ',' :: ((' ' :: fp.data) ++ ',' ::
        ((' ' :: ft.data) ++ ',' :: (' ' :: c.data)))) = false :=
      isVar_false_of ⟨'.', domain_has_dot h1', by decide⟩ hdns.2.2.2.2.2
    unfold processLine
    rw [if_neg (by rw [hnc, hne]; decide), if_neg (by rw [hnv]; decide), if_pos hidf, hcdf]

theorem foldE_fieldLines (ila : String) :
    ∀ (fls : List AdsField) (st : ParseState), (∀ f2 ∈ fls, cleanField f2 = true) →
      foldE (processLine ila) st (fls.map fieldLineRaw) =
        .ok { st with dataFields := st.dataFields ++ fls } := by
  intro fls
  induction fls with
  | nil =>
    intro st _
    simp only [List.map_nil, foldE, List.append_nil]
  | cons f2 rest ih =>
    intro st hall
    rw [List.map_cons]
    have hstep := processLine_fieldLine ila st (hall f2 (List.mem_cons_self _ _))
    simp only [foldE, hstep]
    rw [ih _ (fun g hg => hall g (List.mem_cons_of_mem _ hg))]
    simp [List.append_assoc]

theorem foldE_varLines (ila : String) :
    ∀ (vs : List (String × VarValue)) (st : ParseState),
      (∀ kv ∈ vs, cleanVar kv = true) →
      (∀ kv ∈ vs, lookupVar st.vars kv.1 = none) →
      (vs.map Prod.fst).Nodup →
      foldE (processLine ila) st (vs.map varLineOf) =
        .ok { st with vars := st.vars ++ vs } := by
  intro vs
  induction vs with
  | nil =>
    intro st _ _ _
    simp only [List.map_nil, foldE, List.append_nil]
  | cons kv rest ih =>
    intro st hall hnone hnodup
    obtain ⟨k, v⟩ := kv
    obtain ⟨hk1, hka, s, hs, hs1, hs2⟩ := cleanVar_parts (hall (k, v) (List.mem_cons_self _ _))
    have hsv : v = VarValue.str s := hs
    subst hsv
    have hline : varLineOf (k, VarValue.str s) = k.data ++ '=' :: s.data := rfl
    rw [List.map_cons, hline]
    have hnp : '%' ∉ s.data := all_not_mem hs2 (by decide)
    have hstep : processLine ila st (k.data ++ '=' :: s.data) =
        .ok { st with vars := addVar st.vars k s } :=
      processLine_varLine ila st hk1 hka hs1 hnp
    simp only [foldE, hstep]
    have hlk : lookupVar st.vars k = none :=
      hnone (k, VarValue.str s) (List.mem_cons_self _ _)
    have haddeq : addVar st.vars k s = st.vars ++ [(k, VarValue.str s)] := by
      unfold addVar
      rw [hlk]
      exact setVar_append_not_found _ hlk
    rw [haddeq]
    have hclean2 : ∀ kv2 ∈ rest, cleanVar kv2 = true :=
      fun kv2 hk2 => hall kv2 (List.mem_cons_of_mem _ hk2)
    have hmapc : ((k, VarValue.str s) :: rest).map Prod.fst = k :: rest.map Prod.fst := rfl
    rw [hmapc] at hnodup
    obtain ⟨hknotin, hnodup2⟩ := List.nodup_cons.mp hnodup
    have hnone2 : ∀ kv2 ∈ rest, lookupVar (st.vars ++ [(k, VarValue.str s)]) kv2.1 = none := by
      intro kv2 hkv2
      refine lookupVar_append_singleton (hnone kv2 (List.mem_cons_of_mem _ hkv2)) ?_
      intro he
      exact hknotin (he ▸ List.mem_map_of_mem Prod.fst hkv2)
    rw [ih { st with vars := st.vars ++ [(k, VarValue.str s)] } hclean2 hnone2 hnodup2]
    simp [List.append_assoc]

/-- Claim C5, counterexample: the record
`{domain: "example.com", publisherAccountID: "a,b", accountType: "DIRECT"}`
satisfies every well-formedness invariant of the spec's data model (domain
valid, publisher ID non-empty, account type canonical, no comment), yet
generation emits the publisher ID unescaped, the comma changes the comma-split
arity on re-parse, the line is rejected, and the round-trip loses the record. -/
theorem claim_c5_counterexample :
    generateAdsTxt ⟨[], [⟨"example.com", "a,b", "DIRECT", none, none⟩]⟩ none none =
      .ok "example.com, a,b, DIRECT" ∧
    parseAdsTxt "example.com, a,b, DIRECT" "filter" = .ok ⟨[], []⟩ ∧
    AdsTxtManifest.mk [] [] ≠ ⟨[], [⟨"example.com", "a,b", "DIRECT", none, none⟩]⟩ := by
  exact ⟨by decide, by decide, by decide⟩

/-- Claim C5 (amended): the round-trip `parse(generate(m)) = m` holds for
every manifest of clean comment-free records and clean scalar variables:
fields with a well-formed domain, a non-empty publisher account ID that is
trim-stable and free of `,`, `#`, `%` and line separators, a case-insensitively
valid account type, and a certificate authority ID that is absent or likewise
non-empty, clean and trim-stable; variables with distinct non-empty all-letter
names and non-empty scalar values free of `%` and line separators. -/
theorem claim_c5_amended (m : AdsTxtManifest) (h : cleanManifest m) :
    ∃ t, generateAdsTxt m none none = .ok t ∧ parseAdsTxt t "filter" = .ok m := by
  obtain ⟨mv, mf⟩ := m
  obtain ⟨hf, hv, hnodup⟩ := h
  have hf2 : ∀ f2 ∈ mf, cleanField f2 = true := hf
  have hv2 : ∀ kv ∈ mv, cleanVar kv = true := hv
  have hnodup2 : (mv.map Prod.fst).Nodup := hnodup
  have hmf : mapE generateLineForField mf = .ok (mf.map fieldLineRaw) := mapE_fieldlines hf2
  have hmv : mapE (fun kv => generateLineForVariable kv.1 kv.2) mv = .ok (mv.map varLineOf) :=
    mapE_varlines hv2
  have hgen : generateAdsTxt ⟨mv, mf⟩ none none =
      .ok (String.mk (joinSep ['\n'] (mf.map fieldLineRaw ++ mv.map varLineOf))) :=
    generateAdsTxt_ok_parts hmf hmv
  refine ⟨_, hgen, ?_⟩
  unfold parseAdsTxt
  rw [if_pos (by decide)]
  show (match foldE (processLine "filter") ⟨[], []⟩
      (splitNL (joinSep ['\n'] (mf.map fieldLineRaw ++ mv.map varLineOf))) with
    | Except.ok st => Except.ok (AdsTxtManifest.mk st.vars st.dataFields)
    | Except.error e => (Except.error e : Except ParseErr AdsTxtManifest)) =
    Except.ok (AdsTxtManifest.mk mv mf)
  by_cases hemp : (mf.map fieldLineRaw ++ mv.map varLineOf) = []
  · obtain ⟨hfe, hve⟩ := List.append_eq_nil.mp hemp
    have hmfe : mf = [] := List.map_eq_nil_iff.mp hfe
    have hmve : mv = [] := List.map_eq_nil_iff.mp hve
    subst hmfe
    subst hmve
    decide
  · have hnoNL : ∀ l2 ∈ mf.map fieldLineRaw ++ mv.map varLineOf,
        '\n' ∉ l2 ∧ '\r' ∉ l2 := by
      intro l2 hl2
      rcases List.mem_append.mp hl2 with hin | hin
      · obtain ⟨g, hgm, rfl⟩ := List.mem_map.mp hin
        exact fieldLine_noNL (hf2 g hgm)
      · obtain ⟨kv, hkvm, rfl⟩ := List.mem_map.mp hin
        exact varLine_noNL (hv2 kv hkvm)
    rw [splitNL_joinSep hemp hnoNL]
    have hfold : foldE (processLine "filter") ⟨[], []⟩
        (mf.map fieldLineRaw ++ mv.map varLineOf) = .ok ⟨mf, mv⟩ := by
      rw [foldE_append, foldE_fieldLines "filter" mf ⟨[], []⟩ hf2]
      show foldE (processLine "filter") ⟨[] ++ mf, []⟩ (mv.map varLineOf) = .ok ⟨mf, mv⟩
      have h0 : ∀ kv ∈ mv, lookupVar (ParseState.mk ([] ++ mf) []).vars kv.1 = none :=
        fun kv _ => rfl
      rw [foldE_varLines "filter" mv ⟨[] ++ mf, []⟩ hv2 h0 hnodup2]
      rfl
    rw [hfold]

/-- Witness for C5's amended theorem at a one-record, one-variable manifest. -/
theorem claim_c5_witness :
    ∃ t, generateAdsTxt ⟨[("CONTACT", VarValue.str "me")],
        [⟨"example.com", "abc", "DIRECT", some "ffffff", none⟩]⟩ none none = .ok t ∧
      parseAdsTxt t "filter" = .ok ⟨[("CONTACT", VarValue.str "me")],
        [⟨"example.com", "abc", "DIRECT", some "ffffff", none⟩]⟩ :=
  claim_c5_amended ⟨[("CONTACT", VarValue.str "me")],
    [⟨"example.com", "abc", "DIRECT", some "ffffff", none⟩]⟩
    ⟨by decide, by decide, by decide⟩

/-- Claim C2, counterexample: on the line `example.com,123,direct` the parser
accepts the record (classification is case-insensitive) but stores the account
type exactly as written, `"direct"`, not the canonical upper-case `"DIRECT"`
the claim requires. -/
theorem claim_c2_counterexample :
    parseAdsTxt "example.com,123,direct" "filter" =
      .ok ⟨[], [⟨"example.com", "123", "direct", none, none⟩]⟩ ∧
    ("direct" : String) ≠ "DIRECT" := by
  exact ⟨by decide, by decide⟩

/-- Claim C2 (amended): account-type classification on parse is
case-insensitive -- `direct`, `Direct` and `DIRECT` are all accepted -- but
the parsed record stores the third field as written (trimmed and
percent-decoded), with no upper-case canonicalization. -/
theorem claim_c2_amended (t : String) (h : t ∈ ["direct", "Direct", "DIRECT"]) :
    parseAdsTxt ("example.com,123," ++ t) "filter" =
      .ok ⟨[], [⟨"example.com", "123", t, none, none⟩]⟩ := by
  simp only [List.mem_cons, List.not_mem_nil, or_false] at h
  rcases h with rfl | rfl | rfl <;> decide

/-- Witness for C2's amended theorem at `t = "direct"`. -/
theorem claim_c2_witness :
    parseAdsTxt ("example.com,123," ++ "direct") "filter" =
      .ok ⟨[], [⟨"example.com", "123", "direct", none, none⟩]⟩ :=
  claim_c2_amended "direct" (by decide)

/-- Claim C3, counterexample: `generateAdsTxt` accepts the lower-case account
type `"direct"` (its `isValidAccountType` upper-cases before comparing), so a
record whose accountType is not exactly `DIRECT`/`RESELLER` does NOT fail
generation as the claim states; the line is emitted with the account type
uncanonicalized. -/
theorem claim_c3_counterexample :
    generateAdsTxt ⟨[], [⟨"test-site.com", "abc", "direct", none, none⟩]⟩ none none =
      .ok "test-site.com, abc, direct" := by decide

/-- Claim C3 (amended): at generation time the account type is validated
case-insensitively (the same `isValidAccountType` predicate as parsing):
generation of a single-record manifest succeeds, emitting the account type as
given, exactly when the upper-cased account type is `DIRECT` or `RESELLER`,
and fails with the invalid-account-type error otherwise. -/
theorem claim_c3_amended (d p t : String) (hd : isDomainName d = true) (hp : p ≠ "") :
    (isValidAccountType t = true →
      generateAdsTxt ⟨[], [⟨d, p, t, none, none⟩]⟩ none none =
        .ok (String.mk (d.data ++ [',', ' '] ++ p.data ++ [',', ' '] ++ t.data))) ∧
    (isValidAccountType t = false →
      generateAdsTxt ⟨[], [⟨d, p, t, none, none⟩]⟩ none none =
        .error (.invalidAccountType t)) := by
  constructor
  · intro hval
    have hgen : generateLineForField ⟨d, p, t, none, none⟩ =
        .ok (d.data ++ [',', ' '] ++ p.data ++ [',', ' '] ++ t.data) := by
      rw [genField_ok hd hp hval]
      rfl
    simp [generateAdsTxt, mapE, hgen, joinSep]
  · intro hval
    have hgen : generateLineForField ⟨d, p, t, none, none⟩ =
        .error (.invalidAccountType t) := by
      unfold generateLineForField
      simp only [hd, Bool.not_true, Bool.false_eq_true, if_false, if_neg hp, hval,
        Bool.not_false, if_true]
    exact generateAdsTxt_field_err none none (by simp [mapE, hgen])

/-- Witness for C3's amended theorem at a concrete record with lower-case
account type `"direct"`. -/
theorem claim_c3_witness :
    (isValidAccountType "direct" = true →
      generateAdsTxt ⟨[], [⟨"test-site.com", "abc", "direct", none, none⟩]⟩ none none =
        .ok (String.mk ("test-site.com".data ++ [',', ' '] ++ "abc".data ++ [',', ' '] ++
          "direct".data))) ∧
    (isValidAccountType "direct" = false →
      generateAdsTxt ⟨[], [⟨"test-site.com", "abc", "direct", none, none⟩]⟩ none none =
        .error (.invalidAccountType "direct")) :=
  claim_c3_amended "test-site.com" "abc" "direct" (by decide) (by decide)

theorem splitNL_cr_cons (r : List Char) (h3 : ∀ t2, r ≠ '\n' :: t2) :
    splitNL ('\r' :: r) = [] :: splitNL r := by
  cases r with
  | nil => rfl
  | cons c r2 =>
    have hc : c ≠ '\n' := by
      intro he
      exact h3 r2 (by rw [he])
    rw [splitNL.eq_def]
    split
    · simp_all
    · rename_i heq
      injection heq with e1 e2
      injection e2 with e3 _
      exact absurd e3 hc
    · rename_i heq
      injection heq with e1 e2
      rw [e2]
    · simp_all
    · rename_i hg1 hg2 heq
      injection heq with e1 e2
      exact absurd e1.symm hg1

theorem splitNL_append_cr {a : List Char} (r : List Char) (h1 : '\n' ∉ a) (h2 : '\r' ∉ a)
    (h3 : ∀ t2, r ≠ '\n' :: t2) :
    splitNL (a ++ '\r' :: r) = a :: splitNL r := by
  induction a with
  | nil =>
    rw [List.nil_append]
    exact splitNL_cr_cons r h3
  | cons c rest ih =>
    have hc1 : c ≠ '\n' := fun hh => h1 (hh ▸ List.mem_cons_self c rest)
    have hc2 : c ≠ '\r' := fun hh => h2 (hh ▸ List.mem_cons_self c rest)
    rw [List.cons_append, splitNL_cons_other _ hc1 hc2,
      ih (fun hh => h1 (List.mem_cons_of_mem _ hh)) (fun hh => h2 (List.mem_cons_of_mem _ hh))]

theorem splitNL_append_crlf {a : List Char} (r : List Char) (h1 : '\n' ∉ a)
    (h2 : '\r' ∉ a) : splitNL (a ++ '\r' :: '\n' :: r) = a :: splitNL r := by
  induction a with
  | nil => rfl
  | cons c rest ih =>
    have hc1 : c ≠ '\n' := fun hh => h1 (hh ▸ List.mem_cons_self c rest)
    have hc2 : c ≠ '\r' := fun hh => h2 (hh ▸ List.mem_cons_self c rest)
    rw [List.cons_append, splitNL_cons_other _ hc1 hc2,
      ih (fun hh => h1 (List.mem_cons_of_mem _ hh)) (fun hh => h2 (List.mem_cons_of_mem _ hh))]

theorem joinMixed_cons_head (rest : List (List Char × List Char)) (c : Char)
    (fr : List Char) : ∃ t, joinMixed (c :: fr) rest = c :: t := by
  cases rest with
  | nil => exact ⟨fr, rfl⟩
  | cons p rest2 =>
    obtain ⟨s, l⟩ := p
    exact ⟨(fr ++ s) ++ joinMixed l rest2, rfl⟩

theorem splitNL_joinMixed :
    ∀ (rest : List (List Char × List Char)) (first : List Char),
      '\n' ∉ first → '\r' ∉ first →
      (∀ p ∈ rest, (p.1 = ['\n'] ∨ p.1 = ['\r'] ∨ p.1 = ['\r', '\n']) ∧
        '\n' ∉ p.2 ∧ '\r' ∉ p.2 ∧ p.2 ≠ []) →
      splitNL (joinMixed first rest) = first :: rest.map Prod.snd := by
  intro rest
  induction rest with
  | nil =>
    intro first h1 h2 _
    exact splitNL_eq_single h1 h2
  | cons p rest2 ih =>
    intro first h1 h2 hall
    obtain ⟨s, l⟩ := p
    obtain ⟨hsep0, hl10, hl20, hlne0⟩ := hall (s, l) (List.mem_cons_self _ _)
    have hsep : s = ['\n'] ∨ s = ['\r'] ∨ s = ['\r', '\n'] := hsep0
    have hl1 : '\n' ∉ l := hl10
    have hl2 : '\r' ∉ l := hl20
    have hlne : l ≠ [] := hlne0
    have hall2 := fun q hq => hall q (List.mem_cons_of_mem _ hq)
    show splitNL (first ++ s ++ joinMixed l rest2) = first :: ((s, l) :: rest2).map Prod.snd
    rw [List.append_assoc]
    rcases hsep with hse | hse | hse <;> rw [hse]
    · show splitNL (first ++ '\n' :: joinMixed l rest2) = _
      rw [splitNL_append _ h1 h2, ih l hl1 hl2 hall2]
      rfl
    · obtain ⟨c, fr, hlc⟩ : ∃ c fr, l = c :: fr := by
        cases l with
        | nil => exact absurd rfl hlne
        | cons a b => exact ⟨a, b, rfl⟩
      obtain ⟨t, hjm⟩ := joinMixed_cons_head rest2 c fr
      have hcn : c ≠ '\n' := by
        intro he
        apply hl1
        rw [hlc, he]
        exact List.mem_cons_self _ _
      have h3 : ∀ t2, joinMixed l rest2 ≠ '\n' :: t2 := by
        intro t2 he
        rw [hlc, hjm] at he
        injection he with e1 _
        exact hcn e1
      show splitNL (first ++ '\r' :: joinMixed l rest2) = _
      rw [splitNL_append_cr _ h1 h2 h3, ih l hl1 hl2 hall2]
      rfl
    · show splitNL (first ++ '\r' :: '\n' :: joinMixed l rest2) = _
      rw [splitNL_append_crlf _ h1 h2, ih l hl1 hl2 hall2]
      rfl

theorem parse_joinMixed (ila : String) (first : List Char)
    (rest : List (List Char × List Char)) (h1 : '\n' ∉ first) (h2 : '\r' ∉ first)
    (hall : ∀ p ∈ rest, (p.1 = ['\n'] ∨ p.1 = ['\r'] ∨ p.1 = ['\r', '\n']) ∧
      '\n' ∉ p.2 ∧ '\r' ∉ p.2 ∧ p.2 ≠ []) :
    parseAdsTxt (String.mk (joinMixed first rest)) ila =
      parseAdsTxt (String.mk (joinSep ['\n'] (first :: rest.map Prod.snd))) ila := by
  have e1 : splitNL (String.mk (joinMixed first rest)).data = first :: rest.map Prod.snd :=
    splitNL_joinMixed rest first h1 h2 hall
  have e2 : splitNL (String.mk (joinSep ['\n'] (first :: rest.map Prod.snd))).data =
      first :: rest.map Prod.snd := by
    apply splitNL_joinSep (by simp)
    intro l2 hl2
    rcases List.mem_cons.mp hl2 with hfe | hin
    · rw [hfe]
      exact ⟨h1, h2⟩
    · obtain ⟨p, hp, hpe⟩ := List.mem_map.mp hin
      obtain ⟨_, a, b, _⟩ := hall p hp
      rw [← hpe]
      exact ⟨a, b⟩
  unfold parseAdsTxt
  rw [e1, e2]

/-- Claim C6: `parseAdsTxt` splits its input uniformly on all three line
separators. First conjunct (uniformity): for any lines free of separator
characters (the later ones non-empty, which keeps a bare `\r` from abutting a
`\n` that the regex would read as one `\r\n`), the parse of the text assembled
with ANY per-boundary mixture of `\n`, `\r`, `\r\n` equals the parse of the
same lines joined with `\n` alone, under every policy. Second conjunct: the
scenario input mixing `\r\n` and `\n` parses with default options
(`invalidLineAction = "filter"`) to exactly three records, the second having
publisherAccountID `"my name"` (percent-decoded) and certificateAuthorityID
`"fafdf38b16bf6"`. -/
theorem claim_c6_uniform_split :
    (∀ (ila : String) (first : List Char) (rest : List (List Char × List Char)),
      '\n' ∉ first → '\r' ∉ first →
      (∀ p ∈ rest, (p.1 = ['\n'] ∨ p.1 = ['\r'] ∨ p.1 = ['\r', '\n']) ∧
        '\n' ∉ p.2 ∧ '\r' ∉ p.2 ∧ p.2 ≠ []) →
      parseAdsTxt (String.mk (joinMixed first rest)) ila =
        parseAdsTxt (String.mk (joinSep ['\n'] (first :: rest.map Prod.snd))) ila) ∧
    parseAdsTxt "my.domain.com, 12345, DIRECT #Test\r\nwebsite.org, my%20name,RESELLER,fafdf38b16bf6\ntest.net,555,DIRECT" "filter" =
      .ok ⟨[], [⟨"my.domain.com", "12345", "DIRECT", none, some "Test"⟩,
                ⟨"website.org", "my name", "RESELLER", some "fafdf38b16bf6", none⟩,
                ⟨"test.net", "555", "DIRECT", none, none⟩]⟩ := by
  constructor
  · intro ila first rest h1 h2 hall
    exact parse_joinMixed ila first rest h1 h2 hall
  · decide

/-- Witness for C6's uniformity conjunct: the scenario's own three lines,
assembled with a `\r\n` boundary then a `\n` boundary, parse identically to
their plain `\n` join. -/
theorem claim_c6_witness :
    parseAdsTxt (String.mk (joinMixed "my.domain.com, 12345, DIRECT #Test".data
      [(['\r', '\n'], "website.org, my%20name,RESELLER,fafdf38b16bf6".data),
       (['\n'], "test.net,555,DIRECT".data)])) "filter" =
      parseAdsTxt (String.mk (joinSep ['\n']
        ["my.domain.com, 12345, DIRECT #Test".data,
         "website.org, my%20name,RESELLER,fafdf38b16bf6".data,
         "test.net,555,DIRECT".data])) "filter" :=
  claim_c6_uniform_split.1 "filter" "my.domain.com, 12345, DIRECT #Test".data
    [(['\r', '\n'], "website.org, my%20name,RESELLER,fafdf38b16bf6".data),
     (['\n'], "test.net,555,DIRECT".data)]
    (by decide) (by decide) (by decide)

/-- Claim C10: a variables entry whose value is an empty array does not raise
the invalid-variable-value error (reserved for values that are neither string
nor array, `VarValue.other`); it contributes an empty line: alone it generates
the empty string, and after a record line it leaves a trailing `\n`. -/
theorem claim_c10_empty_array :
    generateAdsTxt ⟨[("FOO", .arr [])], []⟩ none none = .ok "" ∧
    generateAdsTxt ⟨[("FOO", .arr [])], [⟨"example.com", "1", "DIRECT", none, none⟩]⟩
        none none = .ok "example.com, 1, DIRECT\n" ∧
    generateLineForVariable "FOO" .other = .error .invalidVariableValue := by
  exact ⟨by decide, by decide, by decide⟩
